import Mathlib

/-!
Verification development for the value-normalization and formatting engine of
the Finance_OCR_Pro repository (src/components/ResultsView.tsx, src/types.ts).

Strings are modelled as lists of characters (a cell value travels through
trim / slice / replace / split operations, which are pure list operations).
JavaScript numbers are modelled as exact rationals: the specification
describes the pipeline over real numbers ("parse as a real number"), and all
quantities reached by the claims are decimal fractions, which ℚ represents
exactly.  JS built-ins are embedded as follows:

* String.prototype.trim       → trimChars (drop whitespace at both ends);
* Number(string)              → jsNumberQ? : the decimal-literal fragment of
  the ECMAScript StringNumericLiteral grammar (optional sign, digits,
  optional fraction dot), returning none where JS yields NaN.  Exponent,
  hexadecimal and Infinity forms are outside every claim's input space;
* Math.round(x)               → ⌊x + 1/2⌋ (round half toward +∞);
* Number.prototype.toLocaleString with fraction-digit options →
  fmtFixed / fmtAll: decimal rendering with comma thousands separators,
  rounding half away from zero (the Intl default rounding mode).  ℚ has a
  single zero, so these unsigned forms read the sign off the rounded
  integer; the IEEE distinction between +0 and -0, which the program can
  observe (toLocaleString renders -0 with a minus sign under the default
  signDisplay auto), is carried by the sign-aware refinement
  normalizeSigned / transformSigned / renderSigned defined below and used
  where a claim concerns the sign of a zero;
* Array.prototype.sort with the numeric comparator → List.mergeSort (a
  stable sort agreeing with any correct JS sort on an antisymmetric order).
-/

set_option maxRecDepth 4000

namespace FinanceOCR

/-- Character class of the whitespace removed by String.prototype.trim
(restricted to the ASCII forms; no claim involves exotic whitespace). -/
def isWS (c : Char) : Bool :=
  c = ' ' || c = '\t' || c = '\n' || c = '\r' || c = '\x0b' || c = '\x0c'

/-- Both-ends whitespace trimming, modelling String.prototype.trim. -/
def trimChars (l : List Char) : List Char :=
  ((l.dropWhile isWS).reverse.dropWhile isWS).reverse

/-- Decimal digit test, as used by the embedded Number() parser. -/
def isDigitC (c : Char) : Bool := '0' ≤ c && c ≤ '9'

/-- Numeric value of a decimal digit character. -/
def digitVal (c : Char) : ℕ := c.toNat - 48

/-- Value of a big-endian digit string. -/
def digitsVal (l : List Char) : ℕ := l.foldl (fun a c => 10 * a + digitVal c) 0

/-- Unsigned decimal-literal parser: digits with at most one dot and at least
one digit, the fragment of the Number() grammar exercised by the claims. -/
def decCore? (l : List Char) : Option ℚ :=
  let ip := l.takeWhile (fun c => !(c = '.'))
  match l.dropWhile (fun c => !(c = '.')) with
  | [] =>
    if !ip.isEmpty && ip.all isDigitC then some ((digitsVal ip : ℚ)) else none
  | _ :: fp =>
    if (!ip.isEmpty || !fp.isEmpty) && ip.all isDigitC && fp.all isDigitC then
      some ((digitsVal ip : ℚ) + (digitsVal fp : ℚ) / 10 ^ fp.length)
    else none

/-- Model of the JS conversion Number(string) on the decimal fragment:
leading/trailing whitespace is ignored, the empty (or all-whitespace) string
converts to 0, an optional single leading sign is honoured; none stands for
NaN. -/
def jsNumberQ? (l : List Char) : Option ℚ :=
  let t := trimChars l
  if t.isEmpty then some 0
  else if t.head? = some '-' then (decCore? (t.drop 1)).map (fun q => -q)
  else if t.head? = some '+' then decCore? (t.drop 1)
  else decCore? t

/-- Value Normalizer from getFormattedValue (ResultsView.tsx lines 59-87):
trim; strip one layer of accounting parentheses remembering a negative sign;
delete all commas; reject the empty string and NaN; otherwise parse and apply
the remembered sign.  Returns none exactly when the code classifies the cell
as non-numeric text. -/
def normalizeChars (s : List Char) : Option ℚ :=
  let t := trimChars s
  let isNeg := t.head? = some '(' && t.getLast? = some ')'
  let core := if isNeg then trimChars ((t.drop 1).dropLast) else t
  let noCommas := core.filter (fun c => !(c = ','))
  if noCommas.isEmpty then none
  else
    match jsNumberQ? noCommas with
    | none => none
    | some q => some (if isNeg then -q else q)

/-- Digit character for a value below ten. -/
def digitChar (d : ℕ) : Char := Char.ofNat (48 + d)

/-- Fuel-driven big-endian digit rendering of a natural number (no leading
zeros; empty for zero). -/
def natCharsAux : ℕ → ℕ → List Char
  | 0, _ => []
  | fuel + 1, n => if n = 0 then [] else natCharsAux fuel (n / 10) ++ [digitChar (n % 10)]

/-- Decimal digit string of a natural number, as printed by toLocaleString
for the integer part before grouping. -/
def natChars (n : ℕ) : List Char := if n = 0 then ['0'] else natCharsAux (n + 1) n

/-- Exactly k big-endian digits of n modulo 10 ^ k (zero-padded), as printed
for a fixed-width fraction part. -/
def padDigits : ℕ → ℕ → List Char
  | 0, _ => []
  | k + 1, n => padDigits k (n / 10) ++ [digitChar (n % 10)]

/-- Comma grouping on a reversed digit string: after every three digits that
are followed by at least one more digit, insert a comma. -/
def group3Rev : List Char → List Char
  | a :: b :: c :: d :: rest => a :: b :: c :: ',' :: group3Rev (d :: rest)
  | l => l

/-- Thousands separators as inserted by toLocaleString in the integer part. -/
def addGroups (l : List Char) : List Char := (group3Rev l.reverse).reverse

/-- Rounding half away from zero, the Intl.NumberFormat default rounding of
a value to an integer count of fraction units. -/
def rndE (q : ℚ) : ℤ := if 0 ≤ q then ⌊q + 1 / 2⌋ else -⌊-q + 1 / 2⌋

/-- Fixed-point rendering of the integer m of fraction units: sign, grouped
integer part, and (for k ≠ 0) a dot followed by exactly k fraction digits. -/
def fmtFixedInt (m : ℤ) (k : ℕ) : List Char :=
  let a := m.natAbs
  (if m < 0 then ['-'] else []) ++ addGroups (natChars (a / 10 ^ k)) ++
    (if k = 0 then [] else '.' :: padDigits k (a % 10 ^ k))

/-- Model of toLocaleString with minimumFractionDigits = maximumFractionDigits
= k (ResultsView.tsx lines 107-110): round to k fraction digits and render
with thousands separators and a zero-padded fraction part. -/
def fmtFixed (k : ℕ) (q : ℚ) : List Char := fmtFixedInt (rndE (q * 10 ^ k)) k

/-- Model of toLocaleString with maximumFractionDigits = 20 (ResultsView.tsx
line 104): round to 20 fraction digits, trim trailing fraction zeros, render
with thousands separators; the dot disappears when no fraction digit is
left. -/
def fmtAll (q : ℚ) : List Char :=
  let m := rndE (q * 10 ^ 20)
  let a := m.natAbs
  let frac := ((padDigits 20 (a % 10 ^ 20)).reverse.dropWhile (fun c => c = '0')).reverse
  (if m < 0 then ['-'] else []) ++ addGroups (natChars (a / 10 ^ 20)) ++
    (if frac.isEmpty then [] else '.' :: frac)

/-- ProcessingOptions from types.ts; decimalPlaces is an integer where -1 is
the sentinel for keeping all decimals. -/
structure ProcessingOptions where
  multiplier : ℚ
  decimalPlaces : ℤ
  customInstruction : List Char
  forceNegative : Bool
  titleCase : Bool

/-- Helper cleanFloat (ResultsView.tsx lines 46-49): Math.round(num * 1e10)
/ 1e10, eliminating float epsilon noise beyond ten decimal digits. -/
def cleanFloat (q : ℚ) : ℚ := (⌊q * 10 ^ 10 + 1 / 2⌋ : ℚ) / 10 ^ 10

/-- Numeric steps of getFormattedValue (ResultsView.tsx lines 91-97): apply
the multiplier, clean the float noise, then force the sign negative when the
option is set and the value is non-zero. -/
def transformNum (opts : ProcessingOptions) (q : ℚ) : ℚ :=
  let converted := cleanFloat (q * opts.multiplier)
  if opts.forceNegative ∧ ¬converted = 0 then -|converted| else converted

/-- Rendering step of getFormattedValue (ResultsView.tsx lines 101-111). -/
def renderNum (opts : ProcessingOptions) (q : ℚ) : List Char :=
  if opts.decimalPlaces = -1 then fmtAll q else fmtFixed opts.decimalPlaces.toNat q

/-- Fixed set of minor words kept lowercase by the title caser. -/
def minorWords : List (List Char) :=
  [['o', 'f'], ['a', 'n', 'd'], ['i', 'n'], ['o', 'n'], ['a', 't'], ['t', 'o'],
   ['f', 'o', 'r'], ['b', 'y'], ['w', 'i', 't', 'h'], ['a'], ['a', 'n'],
   ['t', 'h', 'e'], ['o', 'r'], ['n', 'o', 'r']]

/-- Split on every single space character, keeping empty fragments, exactly
as String.prototype.split with a one-character separator. -/
def splitSp : List Char → List (List Char)
  | [] => [[]]
  | c :: rest =>
    if c = ' ' then [] :: splitSp rest
    else
      match splitSp rest with
      | [] => [[c]]
      | w :: ws => (c :: w) :: ws

/-- Capitalization of one word: first character uppercased, remainder
lowercased (ASCII case mapping, the range exercised by the claims). -/
def capFirst : List Char → List Char
  | [] => []
  | c :: rest => c.toUpper :: rest.map Char.toLower

/-- Title caser toTitleCase (ResultsView.tsx lines 11-24): split on single
spaces; a minor word that is not the first word is fully lowercased; every
other word is capitalized. -/
def toTitleCase (s : List Char) : List Char :=
  List.intercalate [' ']
    ((splitSp s).mapIdx fun i w =>
      let lower := w.map Char.toLower
      if 0 < i ∧ lower ∈ minorWords then lower else capFirst w)

/-- Cell value as stored in a row: a string or a number (types.ts). -/
inductive CellValue where
  | str : List Char → CellValue
  | num : ℚ → CellValue
deriving DecidableEq

/-- Numeric interpretation of a cell value: a number is accepted directly, a
string goes through the Value Normalizer. -/
def normalizeCell : CellValue → Option ℚ
  | .num q => some q
  | .str s => normalizeChars s

/-- Display-string mode of getFormattedValue (ResultsView.tsx lines 51-112):
numeric values run through the transform pipeline and the renderer;
non-numeric text is returned unchanged, or title-cased when the option is
set. -/
def getFormattedValue (opts : ProcessingOptions) (v : CellValue) : List Char :=
  match v with
  | .num q => renderNum opts (transformNum opts q)
  | .str s =>
    match normalizeChars s with
    | some q => renderNum opts (transformNum opts q)
    | none => if opts.titleCase then toTitleCase s else s

/-- Deletion of every comma, as performed on each copied cell text
(text.replace with a comma pattern and global flag). -/
def stripCommas (l : List Char) : List Char := l.filter (fun c => !(c = ','))

/-- Clipboard text of handleCopy (ResultsView.tsx lines 123-133): the passed
display text with all commas removed. -/
def copyText (text : List Char) : List Char := stripCommas text

/-- Result of looking a row cell up and formatting it.  A missing key gives
undefined in JS; getFormattedValue then falls through every numeric and
title-case branch and hands undefined back, which the export serializers
stringify to the text undefined. -/
def getFormattedValueU (opts : ProcessingOptions) : Option CellValue → List Char
  | some v => getFormattedValue opts v
  | none => ['u', 'n', 'd', 'e', 'f', 'i', 'n', 'e', 'd']

/-- Table shape from types.ts: ordered headers and rows, each row an
association from header name to cell value (JS object lookup; headers are
unique within a table per the data-model invariant, so first-match lookup
agrees with JS property access). -/
structure TableData where
  headers : List (List Char)
  rows : List (List (List Char × CellValue))
  title : Option (List Char) := none
  summary : Option (List Char) := none

/-- Cell of the active table addressed by row and column index; an index out
of range or an absent key yields none (undefined). -/
def cellAt (tbl : TableData) (r c : ℕ) : Option CellValue :=
  match tbl.rows.get? r, tbl.headers.get? c with
  | some row, some h => row.lookup h
  | _, _ => none

/-- Comparator of handleCopySelected: ascending row index, then ascending
column index. -/
def cellLe (x y : ℕ × ℕ) : Bool :=
  decide (x.1 < y.1 ∨ (x.1 = y.1 ∧ x.2 ≤ y.2))

/-- Propositional form of the copy-selection order: row index ascending,
then column index ascending. -/
def cellLeProp (x y : ℕ × ℕ) : Prop := x.1 < y.1 ∨ (x.1 = y.1 ∧ x.2 ≤ y.2)

/-- Clipboard text of handleCopySelected (ResultsView.tsx lines 146-168):
sort the selected cell identities by row then column, format each cell,
strip separators, and join the values with newlines. -/
def copySelectedText (opts : ProcessingOptions) (tbl : TableData)
    (sel : List (ℕ × ℕ)) : List Char :=
  List.intercalate ['\n']
    ((sel.mergeSort cellLe).map fun rc =>
      stripCommas (getFormattedValueU opts (cellAt tbl rc.1 rc.2)))

/-- Header formatting (ResultsView.tsx lines 116-121). -/
def formatHeader (opts : ProcessingOptions) (h : List Char) : List Char :=
  if opts.titleCase then toTitleCase h else h

/-- Clipboard text of handleCopyTable (ResultsView.tsx lines 170-187): a tab
separated header row, then one tab separated line per row in which every
cell is formatted and comma-stripped. -/
def copyTableText (opts : ProcessingOptions) (tbl : TableData) : List Char :=
  let headerRow := List.intercalate ['\t'] (tbl.headers.map (formatHeader opts))
  let body := List.intercalate ['\n']
    (tbl.rows.map fun row =>
      List.intercalate ['\t']
        (tbl.headers.map fun h => stripCommas (getFormattedValueU opts (row.lookup h))))
  headerRow ++ '\n' :: body

/-- Fraction part of a rendered string: everything after the dot (empty when
the string has no dot).  Used to state the precision properties of the
renderer. -/
def fracPart (l : List Char) : List Char := (l.dropWhile (fun c => !(c = '.'))).tail

/-- Title-casing rule as the specification words it: the first word is
capitalized even when it is a minor word; every later word is kept fully
lowercase when its lowercasing lies in the minor-word set and is otherwise
capitalized.  Stated for comparison against toTitleCase from the source. -/
def titleCaseSpec (s : List Char) : List Char :=
  match splitSp s with
  | [] => []
  | w :: ws =>
    List.intercalate [' ']
      (capFirst w :: ws.map fun w2 =>
        let lw := w2.map Char.toLower
        if lw ∈ minorWords then lw else capFirst w2)

/-- Selection state of ResultsView: the active table index and the selected
cell identities in insertion order (the selection is a JS Set of row-column
keys). -/
structure SelectionState where
  activeTableIndex : ℕ
  selectedCells : List (ℕ × ℕ)
deriving DecidableEq

/-- Initial state: table 0, nothing selected. -/
def initialViewState : SelectionState := ⟨0, []⟩

/-- Events of the selection state machine. -/
inductive ViewEvent where
  | toggleCell : ℕ → ℕ → ViewEvent
  | switchTable : ℕ → ViewEvent
  | replaceData : ViewEvent

/-- Membership toggle of toggleCellSelection (ResultsView.tsx lines 135-144):
delete the identity when present, append it when absent. -/
def toggleSel (sel : List (ℕ × ℕ)) (rc : ℕ × ℕ) : List (ℕ × ℕ) :=
  if rc ∈ sel then sel.filter (fun x => !(x = rc)) else sel ++ [rc]

/-- Step function of the selection state machine, mirroring the React
effects (ResultsView.tsx lines 33-41): replacing the data resets the index
to 0 and clears the selection; setting a different active index triggers the
index effect, which clears the selection; setting the same index is a
no-op (React bails out and the effect does not rerun). -/
def stepView (st : SelectionState) : ViewEvent → SelectionState
  | .toggleCell r c => ⟨st.activeTableIndex, toggleSel st.selectedCells (r, c)⟩
  | .switchTable i => if i = st.activeTableIndex then st else ⟨i, []⟩
  | .replaceData => ⟨0, []⟩

/-! ### Sign-aware refinement: the IEEE sign bit of a zero

The ℚ embedding identifies the IEEE values +0 and -0.  The program can
observe the difference: Number("-0") is -0, the JS negation numVal = -numVal
of the accounting-parenthesis branch turns +0 into -0, multiplication by a
positive multiplier, Math.round, division by 1e10 and the forceNegative
guard (converted !== 0 is false at -0) all preserve it, and toLocaleString
renders a negative zero with a minus sign under its default signDisplay
auto.  The following definitions refine the pipeline with the IEEE sign bit
carried alongside the rational value: the bit agrees with the sign of the
value whenever the value is non-zero, and distinguishes -0 (bit true) from
+0 (bit false) at zero. -/

/-- Sign-aware model of Number(string): the value of jsNumberQ? together
with the IEEE sign bit read off the leading minus, so that "-0" converts to
(true, 0), the model of -0. -/
def jsNumberSigned? (l : List Char) : Option (Bool × ℚ) :=
  let t := trimChars l
  if t.isEmpty then some (false, 0)
  else if t.head? = some '-' then (decCore? (t.drop 1)).map (fun q => (true, -q))
  else if t.head? = some '+' then (decCore? (t.drop 1)).map (fun q => (false, q))
  else (decCore? t).map (fun q => (false, q))

/-- Sign-aware Value Normalizer: as normalizeChars, except that the
accounting negation numVal = -numVal flips the IEEE sign bit the way JS
negation does, so "(0)" normalizes to (true, 0), the model of -0, and
"(-0)" back to (false, 0). -/
def normalizeSigned (s : List Char) : Option (Bool × ℚ) :=
  let t := trimChars s
  let isNeg := t.head? = some '(' && t.getLast? = some ')'
  let core := if isNeg then trimChars ((t.drop 1).dropLast) else t
  let noCommas := core.filter (fun c => !(c = ','))
  if noCommas.isEmpty then none
  else
    match jsNumberSigned? noCommas with
    | none => none
    | some bq => some (if isNeg then (!bq.1, -bq.2) else bq)

/-- Sign-aware multiplication numVal * options.multiplier: the IEEE sign
bit of a product is the exclusive or of the operand sign bits (an option
literal carries bit true exactly when it is negative), the value is the
rational product. -/
def mulSigned (neg : Bool) (q m : ℚ) : Bool × ℚ :=
  (Bool.xor neg (decide (m < 0)), q * m)

/-- Sign-aware cleanFloat: Math.round keeps the sign of its argument when
the result is zero (Math.round of -0, and of any negative value not below
-1/2, is -0) and division by the positive 1e10 preserves the sign; the sign
of num * 1e10 equals the sign of num since 1e10 is positive. -/
def cleanFloatSigned (neg : Bool) (q : ℚ) : Bool × ℚ :=
  let r := ⌊q * 10 ^ 10 + 1 / 2⌋
  (if r = 0 then (decide (q < 0) || (decide (q = 0) && neg)) else decide (r < 0),
    (r : ℚ) / 10 ^ 10)

/-- Sign-aware Force Negative: the guard converted !== 0 compares numeric
values only (-0 !== 0 is false in JS), so a zero keeps its sign bit
untouched; a non-zero value becomes -Math.abs(converted), negative in bit
and value. -/
def forceNegSigned (opts : ProcessingOptions) (neg : Bool) (q : ℚ) : Bool × ℚ :=
  if opts.forceNegative ∧ ¬q = 0 then (true, -|q|) else (neg, q)

/-- Sign-aware numeric transform pipeline (ResultsView.tsx lines 91-97). -/
def transformSigned (opts : ProcessingOptions) (neg : Bool) (q : ℚ) : Bool × ℚ :=
  let m1 := mulSigned neg q opts.multiplier
  let c1 := cleanFloatSigned m1.1 m1.2
  forceNegSigned opts c1.1 c1.2

/-- Sign-aware fixed-precision rendering: toLocaleString under the default
signDisplay auto writes a minus sign whenever the formatted number is
negative or is -0; a negative value that rounds to zero rounds to -0 and
keeps its sign, so the sign condition reads the value and bit of the input
rather than the rounded integer.  The digits are those of fmtFixed. -/
def fmtFixedSigned (k : ℕ) (neg : Bool) (q : ℚ) : List Char :=
  let m := rndE (q * 10 ^ k)
  (if q < 0 ∨ (q = 0 ∧ neg = true) then ['-'] else []) ++
    addGroups (natChars (m.natAbs / 10 ^ k)) ++
    (if k = 0 then [] else '.' :: padDigits k (m.natAbs % 10 ^ k))

/-- Sign-aware full-precision rendering, with the same sign rule and the
digits of fmtAll. -/
def fmtAllSigned (neg : Bool) (q : ℚ) : List Char :=
  let m := rndE (q * 10 ^ 20)
  let frac := ((padDigits 20 (m.natAbs % 10 ^ 20)).reverse.dropWhile
    (fun c => c = '0')).reverse
  (if q < 0 ∨ (q = 0 ∧ neg = true) then ['-'] else []) ++
    addGroups (natChars (m.natAbs / 10 ^ 20)) ++
    (if frac.isEmpty then [] else '.' :: frac)

/-- Sign-aware rendering step (ResultsView.tsx lines 101-111). -/
def renderSigned (opts : ProcessingOptions) (neg : Bool) (q : ℚ) : List Char :=
  if opts.decimalPlaces = -1 then fmtAllSigned neg q
  else fmtFixedSigned opts.decimalPlaces.toNat neg q

/-- Sign-aware numeric interpretation of a cell: a number input carries its
own sign bit (a rational encodes no -0, so a numeric zero input stands for
+0); a string goes through the sign-aware normalizer. -/
def signedOfCell : CellValue → Option (Bool × ℚ)
  | .num q => some (decide (q < 0), q)
  | .str s => normalizeSigned s

/-- Sign-aware display mode of getFormattedValue: the ℚ pipeline of
getFormattedValue refined with the IEEE sign bit. -/
def getFormattedValueSigned (opts : ProcessingOptions) (v : CellValue) : List Char :=
  match v with
  | .num q =>
    let t := transformSigned opts (decide (q < 0)) q
    renderSigned opts t.1 t.2
  | .str s =>
    match normalizeSigned s with
    | some bq =>
      let t := transformSigned opts bq.1 bq.2
      renderSigned opts t.1 t.2
    | none => if opts.titleCase then toTitleCase s else s

/-! ### Helper lemmas about trimming and character classes -/

theorem dropWhile_eq_self_of_all {p : Char → Bool} {l : List Char}
    (h : ∀ c ∈ l, p c = false) : l.dropWhile p = l := by
  cases l with
  | nil => rfl
  | cons c cs => simp [List.dropWhile_cons, h c (by simp)]

theorem trimChars_eq_self {l : List Char} (h : ∀ c ∈ l, isWS c = false) :
    trimChars l = l := by
  unfold trimChars
  rw [dropWhile_eq_self_of_all h, dropWhile_eq_self_of_all, List.reverse_reverse]
  intro c hc
  exact h c (by simpa using hc)

theorem isDigitC_ne_dot {c : Char} (h : isDigitC c = true) : ¬c = '.' := by
  intro hc; subst hc; exact absurd h (by decide)

theorem isDigitC_ne_comma {c : Char} (h : isDigitC c = true) : ¬c = ',' := by
  intro hc; subst hc; exact absurd h (by decide)

theorem isDigitC_ne_minus {c : Char} (h : isDigitC c = true) : ¬c = '-' := by
  intro hc; subst hc; exact absurd h (by decide)

theorem isDigitC_ne_plus {c : Char} (h : isDigitC c = true) : ¬c = '+' := by
  intro hc; subst hc; exact absurd h (by decide)

theorem isDigitC_ne_lparen {c : Char} (h : isDigitC c = true) : ¬c = '(' := by
  intro hc; subst hc; exact absurd h (by decide)

theorem isDigitC_not_ws {c : Char} (h : isDigitC c = true) : isWS c = false := by
  cases hw : isWS c
  · rfl
  · exfalso
    simp only [isWS, Bool.or_eq_true, decide_eq_true_eq] at hw
    rcases hw with ((((rfl | rfl) | rfl) | rfl) | rfl) | rfl <;> exact absurd h (by decide)

theorem digitChar_isDigit {d : ℕ} (h : d < 10) : isDigitC (digitChar d) = true := by
  interval_cases d <;> decide

theorem digitVal_digitChar {d : ℕ} (h : d < 10) : digitVal (digitChar d) = d := by
  interval_cases d <;> decide

/-! ### Helper lemmas about digit strings -/

theorem digitsVal_append_singleton (l : List Char) (c : Char) :
    digitsVal (l ++ [c]) = 10 * digitsVal l + digitVal c := by
  simp [digitsVal, List.foldl_append]

theorem digitsVal_append_replicate_zero (l : List Char) :
    ∀ z : ℕ, digitsVal (l ++ List.replicate z '0') = digitsVal l * 10 ^ z
  | 0 => by simp [digitsVal]
  | z + 1 => by
    rw [List.replicate_succ' (n := z), ← List.append_assoc, digitsVal_append_singleton,
      digitsVal_append_replicate_zero l z]
    simp [digitVal, pow_succ]
    ring

theorem mem_natCharsAux {c : Char} :
    ∀ {fuel n : ℕ}, c ∈ natCharsAux fuel n → isDigitC c = true
  | 0, n, h => by simp [natCharsAux] at h
  | fuel + 1, n, h => by
    by_cases hn : n = 0
    · simp [natCharsAux, hn] at h
    · simp only [natCharsAux, if_neg hn, List.mem_append, List.mem_singleton] at h
      rcases h with h | rfl
      · exact mem_natCharsAux h
      · exact digitChar_isDigit (Nat.mod_lt _ (by norm_num))

theorem digitsVal_natCharsAux :
    ∀ (fuel n : ℕ), n < 10 ^ fuel → digitsVal (natCharsAux fuel n) = n
  | 0, n, h => by
    interval_cases n
    rfl
  | fuel + 1, n, h => by
    by_cases hn : n = 0
    · simp [natCharsAux, hn, digitsVal]
    · have hdiv : n / 10 < 10 ^ fuel := by
        apply Nat.div_lt_of_lt_mul
        calc n < 10 ^ (fuel + 1) := h
        _ = 10 * 10 ^ fuel := by ring
      rw [natCharsAux, if_neg hn, digitsVal_append_singleton,
        digitsVal_natCharsAux fuel (n / 10) hdiv,
        digitVal_digitChar (Nat.mod_lt _ (by norm_num))]
      exact Nat.div_add_mod n 10

theorem digitsVal_natChars (n : ℕ) : digitsVal (natChars n) = n := by
  by_cases hn : n = 0
  · subst hn; decide
  · have hlt : n < 10 ^ (n + 1) :=
      lt_of_lt_of_le (Nat.lt_pow_self (by norm_num) n)
        (Nat.pow_le_pow_right (by norm_num) (Nat.le_succ n))
    rw [natChars, if_neg hn]
    exact digitsVal_natCharsAux (n + 1) n hlt

theorem natChars_ne_nil (n : ℕ) : ¬natChars n = [] := by
  by_cases hn : n = 0
  · subst hn; decide
  · rw [natChars, if_neg hn, natCharsAux, if_neg hn]
    simp

theorem mem_natChars {n : ℕ} {c : Char} (h : c ∈ natChars n) : isDigitC c = true := by
  by_cases hn : n = 0
  · subst hn; simp [natChars] at h; subst h; decide
  · rw [natChars, if_neg hn] at h
    exact mem_natCharsAux h

theorem length_padDigits : ∀ (k n : ℕ), (padDigits k n).length = k
  | 0, _ => rfl
  | k + 1, n => by simp [padDigits, length_padDigits k (n / 10)]

theorem mem_padDigits {c : Char} :
    ∀ {k n : ℕ}, c ∈ padDigits k n → isDigitC c = true
  | 0, n, h => by simp [padDigits] at h
  | k + 1, n, h => by
    simp only [padDigits, List.mem_append, List.mem_singleton] at h
    rcases h with h | rfl
    · exact mem_padDigits h
    · exact digitChar_isDigit (Nat.mod_lt _ (by norm_num))

theorem digitsVal_padDigits : ∀ (k n : ℕ), digitsVal (padDigits k n) = n % 10 ^ k := by
  intro k
  induction k with
  | zero => intro n; simp [padDigits, digitsVal, Nat.mod_one]
  | succ k ih =>
    intro n
    rw [padDigits, digitsVal_append_singleton, ih (n / 10),
      digitVal_digitChar (Nat.mod_lt _ (by norm_num))]
    symm
    have h1 : n = 10 ^ (k + 1) * (n / 10 / 10 ^ k) + (10 * (n / 10 % 10 ^ k) + n % 10) := by
      have e1 : 10 ^ k * (n / 10 / 10 ^ k) + n / 10 % 10 ^ k = n / 10 :=
        Nat.div_add_mod (n / 10) (10 ^ k)
      have e2 : 10 * (n / 10) + n % 10 = n := Nat.div_add_mod n 10
      calc n = 10 * (n / 10) + n % 10 := e2.symm
      _ = 10 * (10 ^ k * (n / 10 / 10 ^ k) + n / 10 % 10 ^ k) + n % 10 := by rw [e1]
      _ = 10 ^ (k + 1) * (n / 10 / 10 ^ k) + (10 * (n / 10 % 10 ^ k) + n % 10) := by
        rw [pow_succ]; ring
    have hlt : 10 * (n / 10 % 10 ^ k) + n % 10 < 10 ^ (k + 1) := by
      have ha : n / 10 % 10 ^ k < 10 ^ k := Nat.mod_lt _ (Nat.pos_pow_of_pos k (by norm_num))
      have hb : n % 10 < 10 := Nat.mod_lt _ (by norm_num)
      calc 10 * (n / 10 % 10 ^ k) + n % 10 < 10 * (n / 10 % 10 ^ k) + 10 := by omega
      _ = 10 * (n / 10 % 10 ^ k + 1) := by ring
      _ ≤ 10 * 10 ^ k := by
        apply Nat.mul_le_mul_left
        omega
      _ = 10 ^ (k + 1) := by rw [pow_succ]; ring
    calc n % 10 ^ (k + 1)
        = (10 ^ (k + 1) * (n / 10 / 10 ^ k) + (10 * (n / 10 % 10 ^ k) + n % 10)) % 10 ^ (k + 1) := by
          rw [← h1]
    _ = (10 * (n / 10 % 10 ^ k) + n % 10) % 10 ^ (k + 1) := by
          rw [Nat.mul_add_mod]
    _ = 10 * (n / 10 % 10 ^ k) + n % 10 := Nat.mod_eq_of_lt hlt

/-! ### Helper lemmas about splitting a string at the dot -/

theorem takeWhile_append_cons {p : Char → Bool} {a : List Char} {x : Char}
    (b : List Char) (ha : ∀ c ∈ a, p c = true) (hx : p x = false) :
    (a ++ x :: b).takeWhile p = a := by
  induction a with
  | nil => simp [List.takeWhile_cons, hx]
  | cons c cs ih =>
    have hc : p c = true := ha c (by simp)
    simp only [List.cons_append, List.takeWhile_cons, hc, if_true]
    rw [ih fun d hd => ha d (by simp [hd])]

theorem dropWhile_append_cons {p : Char → Bool} {a : List Char} {x : Char}
    (b : List Char) (ha : ∀ c ∈ a, p c = true) (hx : p x = false) :
    (a ++ x :: b).dropWhile p = x :: b := by
  induction a with
  | nil => simp [List.dropWhile_cons, hx]
  | cons c cs ih =>
    have hc : p c = true := ha c (by simp)
    simp only [List.cons_append, List.dropWhile_cons, hc, if_true]
    exact ih fun d hd => ha d (by simp [hd])

theorem takeWhile_eq_self_of_all {p : Char → Bool} {a : List Char}
    (ha : ∀ c ∈ a, p c = true) : a.takeWhile p = a := by
  induction a with
  | nil => rfl
  | cons c cs ih =>
    simp only [List.takeWhile_cons, ha c (by simp), if_true]
    rw [ih fun d hd => ha d (by simp [hd])]

theorem dropWhile_eq_nil_of_all {p : Char → Bool} {a : List Char}
    (ha : ∀ c ∈ a, p c = true) : a.dropWhile p = [] := by
  induction a with
  | nil => rfl
  | cons c cs ih =>
    simp only [List.dropWhile_cons, ha c (by simp), if_true]
    exact ih fun d hd => ha d (by simp [hd])

theorem head?_dropWhile_ne {p : Char → Bool} :
    ∀ {l : List Char} {c : Char}, (l.dropWhile p).head? = some c → p c = false := by
  intro l
  induction l with
  | nil => intro c h; simp [List.dropWhile] at h
  | cons a as ih =>
    intro c h
    rw [List.dropWhile_cons] at h
    by_cases hp : p a
    · rw [if_pos hp] at h
      exact ih h
    · rw [if_neg hp] at h
      simp only [List.head?_cons, Option.some.injEq] at h
      subst h
      exact Bool.eq_false_iff.mpr hp

/-! ### Evaluation of the decimal parser on canonical digit strings -/

theorem decCore?_digits {l : List Char} (hne : ¬l = [])
    (hd : ∀ c ∈ l, isDigitC c = true) : decCore? l = some ((digitsVal l : ℚ)) := by
  have hnotdot : ∀ c ∈ l, (fun c => !(c = '.')) c = true := by
    intro c hc
    simpa using isDigitC_ne_dot (hd c hc)
  have h1 : l.dropWhile (fun c => !(c = '.')) = [] := dropWhile_eq_nil_of_all hnotdot
  have h2 : l.takeWhile (fun c => !(c = '.')) = l := takeWhile_eq_self_of_all hnotdot
  have hcond : (!l.isEmpty && l.all isDigitC) = true := by
    simp only [Bool.and_eq_true, Bool.not_eq_true', List.isEmpty_eq_false, ne_eq,
      List.all_eq_true]
    exact ⟨hne, hd⟩
  simp only [decCore?, h1, h2, hcond, if_true]

theorem decCore?_digits_dot {a b : List Char} (hane : ¬a = [])
    (hda : ∀ c ∈ a, isDigitC c = true) (hdb : ∀ c ∈ b, isDigitC c = true) :
    decCore? (a ++ '.' :: b) =
      some ((digitsVal a : ℚ) + (digitsVal b : ℚ) / 10 ^ b.length) := by
  have hnotdot : ∀ c ∈ a, (fun c => !(c = '.')) c = true := by
    intro c hc
    simpa using isDigitC_ne_dot (hda c hc)
  have hdot : (fun c => !(c = '.')) '.' = false := by simp
  have h1 : (a ++ '.' :: b).dropWhile (fun c => !(c = '.')) = '.' :: b :=
    dropWhile_append_cons b hnotdot hdot
  have h2 : (a ++ '.' :: b).takeWhile (fun c => !(c = '.')) = a :=
    takeWhile_append_cons b hnotdot hdot
  have hcond : ((!a.isEmpty || !b.isEmpty) && a.all isDigitC && b.all isDigitC) = true := by
    simp only [Bool.and_eq_true, Bool.or_eq_true, Bool.not_eq_true', List.isEmpty_eq_false,
      ne_eq, List.all_eq_true]
    exact ⟨⟨Or.inl hane, hda⟩, hdb⟩
  simp only [decCore?, h1, h2, hcond, if_true]

/-! ### Helper lemmas about comma grouping -/

theorem group3Rev_eq_self_short : ∀ (l : List Char), l.length ≤ 3 → group3Rev l = l := by
  intro l hl
  rcases l with _ | ⟨a, _ | ⟨b, _ | ⟨c, _ | ⟨d, rest⟩⟩⟩⟩
  · rfl
  · rfl
  · rfl
  · rfl
  · simp at hl

theorem group3Rev_filter : ∀ (l : List Char), ¬ ',' ∈ l →
    (group3Rev l).filter (fun c => !(c = ',')) = l := by
  intro l
  induction l using group3Rev.induct with
  | case1 a b c d rest ih =>
    intro h
    simp only [List.mem_cons, not_or] at h
    obtain ⟨ha, hb, hc, hrest⟩ := h
    have hrest' : ¬ ',' ∈ d :: rest := by
      simp only [List.mem_cons, not_or]
      exact hrest
    have ea : (fun c => !(c = ',')) a = true := by simpa using fun e => ha e.symm
    have eb : (fun c => !(c = ',')) b = true := by simpa using fun e => hb e.symm
    have ec : (fun c => !(c = ',')) c = true := by simpa using fun e => hc e.symm
    have em : ¬(fun c => !(c = ',')) ',' = true := by simp
    simp only [group3Rev]
    rw [@List.filter_cons_of_pos _ (fun c => !(c = ',')) a _ ea,
      @List.filter_cons_of_pos _ (fun c => !(c = ',')) b _ eb,
      @List.filter_cons_of_pos _ (fun c => !(c = ',')) c _ ec,
      @List.filter_cons_of_neg _ (fun c => !(c = ',')) ',' _ em, ih hrest']
  | case2 l h2 =>
    intro h
    have hshort : l.length ≤ 3 := by
      rcases l with _ | ⟨a, _ | ⟨b, _ | ⟨c, _ | ⟨d, rest⟩⟩⟩⟩ <;> simp
      exact absurd rfl (h2 a b c d rest)
    rw [group3Rev_eq_self_short l hshort]
    rw [List.filter_eq_self]
    intro a ha
    simp only [Bool.not_eq_true', decide_eq_false_iff_not]
    intro e
    exact h (e ▸ ha)

theorem mem_group3Rev : ∀ (l : List Char) (c : Char), c ∈ group3Rev l → c ∈ l ∨ c = ',' := by
  intro l
  induction l using group3Rev.induct with
  | case1 a b c d rest ih =>
    intro x hx
    simp only [group3Rev, List.mem_cons] at hx
    rcases hx with rfl | rfl | rfl | rfl | hx
    · exact Or.inl (by simp)
    · exact Or.inl (by simp)
    · exact Or.inl (by simp)
    · exact Or.inr rfl
    · rcases ih x hx with hm | he
      · exact Or.inl (by simp [List.mem_cons] at hm ⊢; tauto)
      · exact Or.inr he
  | case2 l h2 =>
    intro x hx
    have hshort : l.length ≤ 3 := by
      rcases l with _ | ⟨a, _ | ⟨b, _ | ⟨c, _ | ⟨d, rest⟩⟩⟩⟩ <;> simp
      exact absurd rfl (h2 a b c d rest)
    rw [group3Rev_eq_self_short l hshort] at hx
    exact Or.inl hx

theorem stripCommas_addGroups {l : List Char} (h : ¬ ',' ∈ l) :
    stripCommas (addGroups l) = l := by
  unfold stripCommas addGroups
  rw [List.filter_reverse, group3Rev_filter l.reverse (by simpa using h),
    List.reverse_reverse]

theorem mem_addGroups {l : List Char} {c : Char} (h : c ∈ addGroups l) :
    c ∈ l ∨ c = ',' := by
  unfold addGroups at h
  rcases mem_group3Rev l.reverse c (by simpa using h) with hm | he
  · exact Or.inl (by simpa using hm)
  · exact Or.inr he

theorem addGroups_ne_nil {l : List Char} (hne : ¬l = []) (h : ¬ ',' ∈ l) :
    ¬addGroups l = [] := by
  intro he
  apply hne
  have := stripCommas_addGroups h
  rw [he] at this
  simpa [stripCommas] using this.symm


/-! ### Character classification of rendered numbers -/

theorem mem_fmtFixedInt_core {m : ℤ} {k : ℕ} {c : Char}
    (h : c ∈ natChars (m.natAbs / 10 ^ k) ++
      (if k = 0 then [] else '.' :: padDigits k (m.natAbs % 10 ^ k))) :
    isDigitC c = true ∨ c = '.' := by
  rw [List.mem_append] at h
  rcases h with h | h
  · exact Or.inl (mem_natChars h)
  · by_cases hk : k = 0
    · rw [if_pos hk] at h
      simp at h
    · rw [if_neg hk] at h
      rcases List.mem_cons.mp h with rfl | h
      · exact Or.inr rfl
      · exact Or.inl (mem_padDigits h)

theorem core_not_ws {m : ℤ} {k : ℕ} {c : Char}
    (h : c ∈ natChars (m.natAbs / 10 ^ k) ++
      (if k = 0 then [] else '.' :: padDigits k (m.natAbs % 10 ^ k))) :
    isWS c = false := by
  rcases mem_fmtFixedInt_core h with hd | rfl
  · exact isDigitC_not_ws hd
  · decide

/-! ### Parsing a rendered fixed-point number recovers the rounded value -/

theorem stripCommas_fmtFixedInt (m : ℤ) (k : ℕ) :
    stripCommas (fmtFixedInt m k) =
      (if m < 0 then ['-'] else []) ++ natChars (m.natAbs / 10 ^ k) ++
        (if k = 0 then [] else '.' :: padDigits k (m.natAbs % 10 ^ k)) := by
  have h1 : List.filter (fun c => !(c = ',')) (if m < 0 then ['-'] else ([] : List Char)) =
      (if m < 0 then ['-'] else []) := by
    by_cases hm : m < 0 <;> simp [hm]
  have h2 : List.filter (fun c => !(c = ','))
      (addGroups (natChars (m.natAbs / 10 ^ k))) = natChars (m.natAbs / 10 ^ k) := by
    apply stripCommas_addGroups
    intro hc
    exact absurd rfl (isDigitC_ne_comma (mem_natChars hc))
  have h3 : List.filter (fun c => !(c = ','))
      (if k = 0 then [] else '.' :: padDigits k (m.natAbs % 10 ^ k)) =
      (if k = 0 then [] else '.' :: padDigits k (m.natAbs % 10 ^ k)) := by
    by_cases hk : k = 0
    · simp [hk]
    · rw [if_neg hk, List.filter_cons_of_pos (by decide)]
      congr 1
      rw [List.filter_eq_self]
      intro c hc
      simpa using isDigitC_ne_comma (mem_padDigits hc)
  unfold fmtFixedInt stripCommas
  rw [List.filter_append, List.filter_append, h1, h2, h3]

theorem decCore?_core (a : ℕ) (k : ℕ) :
    decCore? (natChars (a / 10 ^ k) ++
        (if k = 0 then [] else '.' :: padDigits k (a % 10 ^ k))) =
      some ((a : ℚ) / 10 ^ k) := by
  by_cases hk : k = 0
  · subst hk
    rw [if_pos rfl, List.append_nil,
      decCore?_digits (natChars_ne_nil _) (fun c hc => mem_natChars hc)]
    simp [digitsVal_natChars]
  · rw [if_neg hk,
      decCore?_digits_dot (natChars_ne_nil _) (fun c hc => mem_natChars hc)
        (fun c hc => mem_padDigits hc)]
    rw [digitsVal_natChars, digitsVal_padDigits, length_padDigits,
      Nat.mod_mod_of_dvd _ (dvd_refl _)]
    have hnat : a / 10 ^ k * 10 ^ k + a % 10 ^ k = a := by
      rw [Nat.mul_comm]
      exact Nat.div_add_mod a (10 ^ k)
    have hsum : ((a / 10 ^ k : ℕ) : ℚ) * 10 ^ k + ((a % 10 ^ k : ℕ) : ℚ) = (a : ℚ) := by
      exact_mod_cast hnat
    have h10 : ((10 : ℚ) ^ k) ≠ 0 := by positivity
    congr 1
    field_simp
    linarith [hsum]

theorem jsNumberQ?_unsigned {t : List Char} (hne : ¬t = [])
    (hws : ∀ c ∈ t, isWS c = false)
    (hhead : ∀ c, t.head? = some c → isDigitC c = true) :
    jsNumberQ? t = decCore? t := by
  obtain ⟨c0, cs0, rfl⟩ := List.exists_cons_of_ne_nil hne
  have hd : isDigitC c0 = true := hhead c0 rfl
  unfold jsNumberQ?
  rw [trimChars_eq_self hws]
  rw [if_neg (by simp), if_neg, if_neg]
  · simp only [List.head?_cons, Option.some.injEq]
    exact isDigitC_ne_plus hd
  · simp only [List.head?_cons, Option.some.injEq]
    exact isDigitC_ne_minus hd

theorem jsNumberQ?_negSign {t : List Char} (hws : ∀ c ∈ t, isWS c = false) :
    jsNumberQ? ('-' :: t) = (decCore? t).map (fun q => -q) := by
  have hws2 : ∀ c ∈ '-' :: t, isWS c = false := by
    intro c hc
    rcases List.mem_cons.mp hc with rfl | hc
    · decide
    · exact hws c hc
  unfold jsNumberQ?
  rw [trimChars_eq_self hws2]
  rw [if_neg (by simp), if_pos (by simp)]
  rfl

theorem parse_fmtFixedInt (m : ℤ) (k : ℕ) :
    jsNumberQ? (stripCommas (fmtFixedInt m k)) = some ((m : ℚ) / 10 ^ k) := by
  rw [stripCommas_fmtFixedInt]
  have hws : ∀ c ∈ natChars (m.natAbs / 10 ^ k) ++
      (if k = 0 then [] else '.' :: padDigits k (m.natAbs % 10 ^ k)), isWS c = false :=
    fun c hc => @core_not_ws m k c hc
  obtain ⟨c0, cs0, h0⟩ := List.exists_cons_of_ne_nil (natChars_ne_nil (m.natAbs / 10 ^ k))
  have hd0 : isDigitC c0 = true := mem_natChars (h0 ▸ List.mem_cons_self c0 cs0)
  by_cases hm : m < 0
  · rw [if_pos hm, List.singleton_append, List.cons_append, jsNumberQ?_negSign hws,
      decCore?_core]
    have hcast : ((m.natAbs : ℚ)) = -(m : ℚ) := by
      rw [Int.cast_natAbs]
      exact_mod_cast abs_of_neg hm
    have hmap : (some ((m.natAbs : ℚ) / 10 ^ k)).map (fun q => -q) =
        some (-((m.natAbs : ℚ) / 10 ^ k)) := rfl
    rw [hmap, ← neg_div, hcast, neg_neg]
  · rw [if_neg hm, List.nil_append, jsNumberQ?_unsigned, decCore?_core]
    · have hcast : ((m.natAbs : ℚ)) = (m : ℚ) := by
        rw [Int.cast_natAbs]
        exact_mod_cast abs_of_nonneg (not_lt.mp hm)
      rw [hcast]
    · intro he
      rw [h0] at he
      simp at he
    · exact hws
    · intro c hc
      rw [h0] at hc
      simp only [List.cons_append, List.head?_cons, Option.some.injEq] at hc
      subst hc
      exact hd0


/-! ### Rounding helper lemmas -/

theorem rndE_intCast (z : ℤ) : rndE ((z : ℚ)) = z := by
  unfold rndE
  have hfl : ⌊(z : ℚ) + 1 / 2⌋ = z := by
    rw [add_comm, Int.floor_add_int]
    norm_num
  by_cases hz : (0 : ℚ) ≤ (z : ℚ)
  · rw [if_pos hz, hfl]
  · rw [if_neg hz]
    have : ⌊-(z : ℚ) + 1 / 2⌋ = -z := by
      rw [show -(z : ℚ) = ((-z : ℤ) : ℚ) by push_cast; ring, add_comm, Int.floor_add_int]
      norm_num
    rw [this, neg_neg]

theorem rndE_nonpos {q : ℚ} (h : q ≤ 0) : rndE q ≤ 0 := by
  unfold rndE
  by_cases hq : (0 : ℚ) ≤ q
  · rw [if_pos hq]
    have hq0 : q = 0 := le_antisymm h hq
    subst hq0
    norm_num
  · rw [if_neg hq]
    have : (0 : ℚ) < -q + 1 / 2 := by
      push_neg at hq
      linarith
    have h0 : (0 : ℤ) ≤ ⌊-q + 1 / 2⌋ := by
      apply Int.floor_nonneg.mpr
      linarith
    omega

/-! ### Trailing-zero trimming -/

theorem mem_trimZeros {l : List Char} {c : Char}
    (h : c ∈ (l.reverse.dropWhile (fun c => c = '0')).reverse) : c ∈ l := by
  rw [List.mem_reverse] at h
  have hsub : List.Sublist (l.reverse.dropWhile (fun c => c = '0')) l.reverse :=
    List.dropWhile_sublist _
  have := hsub.subset h
  simpa using this

theorem trimZeros_decomp (l : List Char) :
    ∃ z, l = ((l.reverse.dropWhile (fun c => c = '0')).reverse) ++ List.replicate z '0' ∧
      ((l.reverse.dropWhile (fun c => c = '0')).reverse).length + z = l.length := by
  have h : l.reverse.takeWhile (fun c => c = '0') ++ l.reverse.dropWhile (fun c => c = '0') =
      l.reverse := List.takeWhile_append_dropWhile _ _
  refine ⟨(l.reverse.takeWhile (fun c => c = '0')).length, ?_, ?_⟩
  · have htw : l.reverse.takeWhile (fun c => c = '0') =
        List.replicate (l.reverse.takeWhile (fun c => c = '0')).length '0' := by
      rw [List.eq_replicate_iff]
      refine ⟨rfl, ?_⟩
      intro b hb
      have := List.mem_takeWhile_imp hb
      simpa using this
    calc l = l.reverse.reverse := by rw [List.reverse_reverse]
    _ = (l.reverse.takeWhile (fun c => c = '0') ++
          l.reverse.dropWhile (fun c => c = '0')).reverse := by rw [h]
    _ = (l.reverse.dropWhile (fun c => c = '0')).reverse ++
          (l.reverse.takeWhile (fun c => c = '0')).reverse := by rw [List.reverse_append]
    _ = (l.reverse.dropWhile (fun c => c = '0')).reverse ++
          List.replicate (l.reverse.takeWhile (fun c => c = '0')).length '0' := by
        congr 1
        rw [htw, List.reverse_replicate, List.length_replicate]
  · have hlen := congrArg List.length h
    simp only [List.length_append, List.length_reverse] at hlen ⊢
    omega

theorem getLast?_trimZeros (l : List Char) {c : Char}
    (h : ((l.reverse.dropWhile (fun c => c = '0')).reverse).getLast? = some c) :
    ¬c = '0' := by
  rw [List.getLast?_reverse] at h
  have := head?_dropWhile_ne h
  simpa using this

/-! ### Parsing a rendered full-precision number recovers the value -/

theorem decCore?_core_frac (i : ℕ) (fr : List Char)
    (hfr : ∀ c ∈ fr, isDigitC c = true) :
    decCore? (natChars i ++ (if fr.isEmpty then [] else '.' :: fr)) =
      some ((i : ℚ) + (digitsVal fr : ℚ) / 10 ^ fr.length) := by
  by_cases hfe : fr.isEmpty
  · rw [if_pos hfe, List.append_nil,
      decCore?_digits (natChars_ne_nil _) (fun c hc => mem_natChars hc)]
    rw [List.isEmpty_iff] at hfe
    subst hfe
    rw [digitsVal_natChars]
    norm_num [digitsVal]
  · rw [if_neg hfe,
      decCore?_digits_dot (natChars_ne_nil _) (fun c hc => mem_natChars hc) hfr,
      digitsVal_natChars]

theorem jsNumberQ?_signed (m : ℤ) {core : List Char} {v : ℚ}
    (hne : ¬core = []) (hws : ∀ c ∈ core, isWS c = false)
    (hhead : ∀ c, core.head? = some c → isDigitC c = true)
    (hval : decCore? core = some v) :
    jsNumberQ? ((if m < 0 then ['-'] else []) ++ core) =
      some (if m < 0 then -v else v) := by
  by_cases hm : m < 0
  · rw [if_pos hm, if_pos hm, List.singleton_append, jsNumberQ?_negSign hws, hval]
    rfl
  · rw [if_neg hm, if_neg hm, List.nil_append, jsNumberQ?_unsigned hne hws hhead, hval]

theorem stripCommas_render_shape (m : ℤ) (i : ℕ) (fr : List Char)
    (hfr : ∀ c ∈ fr, isDigitC c = true) :
    stripCommas ((if m < 0 then ['-'] else []) ++ addGroups (natChars i) ++
        (if fr.isEmpty then [] else '.' :: fr)) =
      (if m < 0 then ['-'] else []) ++ natChars i ++ (if fr.isEmpty then [] else '.' :: fr) := by
  have h1 : List.filter (fun c => !(c = ',')) (if m < 0 then ['-'] else ([] : List Char)) =
      (if m < 0 then ['-'] else []) := by
    by_cases hm : m < 0 <;> simp [hm]
  have h2 : List.filter (fun c => !(c = ',')) (addGroups (natChars i)) = natChars i := by
    apply stripCommas_addGroups
    intro hc
    exact absurd rfl (isDigitC_ne_comma (mem_natChars hc))
  have h3 : List.filter (fun c => !(c = ',')) (if fr.isEmpty then [] else '.' :: fr) =
      (if fr.isEmpty then [] else '.' :: fr) := by
    by_cases hfe : fr.isEmpty
    · rw [if_pos hfe]
      rfl
    · rw [if_neg hfe, List.filter_cons_of_pos (by decide)]
      congr 1
      rw [List.filter_eq_self]
      intro c hc
      simpa using isDigitC_ne_comma (hfr c hc)
  unfold stripCommas
  rw [List.filter_append, List.filter_append, h1, h2, h3]

theorem parse_render_shape (m : ℤ) (i : ℕ) (fr : List Char)
    (hfr : ∀ c ∈ fr, isDigitC c = true) :
    jsNumberQ? (stripCommas ((if m < 0 then ['-'] else []) ++ addGroups (natChars i) ++
        (if fr.isEmpty then [] else '.' :: fr))) =
      some (if m < 0 then -((i : ℚ) + (digitsVal fr : ℚ) / 10 ^ fr.length)
            else ((i : ℚ) + (digitsVal fr : ℚ) / 10 ^ fr.length)) := by
  rw [stripCommas_render_shape m i fr hfr, List.append_assoc]
  obtain ⟨c0, cs0, h0⟩ := List.exists_cons_of_ne_nil (natChars_ne_nil i)
  have hcore_ne : ¬(natChars i ++ (if fr.isEmpty then [] else '.' :: fr)) = [] := by
    rw [h0]
    simp
  have hws : ∀ c ∈ natChars i ++ (if fr.isEmpty then [] else '.' :: fr),
      isWS c = false := by
    intro c hc
    rcases List.mem_append.mp hc with hc | hc
    · exact isDigitC_not_ws (mem_natChars hc)
    · by_cases hfe : fr.isEmpty
      · rw [if_pos hfe] at hc
        simp at hc
      · rw [if_neg hfe] at hc
        rcases List.mem_cons.mp hc with rfl | hc
        · decide
        · exact isDigitC_not_ws (hfr c hc)
  have hhead : ∀ c, (natChars i ++
      (if fr.isEmpty then [] else '.' :: fr)).head? = some c → isDigitC c = true := by
    intro c hc
    rw [h0] at hc
    simp only [List.cons_append, List.head?_cons, Option.some.injEq] at hc
    subst hc
    exact mem_natChars (h0 ▸ List.mem_cons_self c0 cs0)
  exact jsNumberQ?_signed m hcore_ne hws hhead (decCore?_core_frac i fr hfr)

theorem signed_div_natAbs (n : ℤ) :
    (if n * 10 ^ 10 < 0 then -((((n * 10 ^ 10).natAbs : ℚ)) / 10 ^ 20)
     else (((n * 10 ^ 10).natAbs : ℚ)) / 10 ^ 20) = (n : ℚ) / 10 ^ 10 := by
  have hcast : (((n * 10 ^ 10).natAbs : ℚ)) = |((n * 10 ^ 10 : ℤ) : ℚ)| := by
    rw [Int.cast_natAbs, Int.cast_abs]
  have hmain : ((n * 10 ^ 10 : ℤ) : ℚ) / 10 ^ 20 = (n : ℚ) / 10 ^ 10 := by
    push_cast
    rw [div_eq_div_iff (by positivity) (by positivity)]
    ring
  by_cases hneg : n * 10 ^ 10 < 0
  · rw [if_pos hneg, hcast, abs_of_neg (by exact_mod_cast hneg), neg_div, neg_neg, hmain]
  · rw [if_neg hneg, hcast, abs_of_nonneg (by exact_mod_cast not_lt.mp hneg), hmain]

theorem parse_fmtAll (n : ℤ) :
    jsNumberQ? (stripCommas (fmtAll ((n : ℚ) / 10 ^ 10))) = some ((n : ℚ) / 10 ^ 10) := by
  have harg : ((n : ℚ) / 10 ^ 10) * 10 ^ 20 = ((n * 10 ^ 10 : ℤ) : ℚ) := by
    push_cast
    field_simp
    ring
  have hm : rndE (((n : ℚ) / 10 ^ 10) * 10 ^ 20) = n * 10 ^ 10 := by
    rw [harg, rndE_intCast]
  have hshape : fmtAll ((n : ℚ) / 10 ^ 10) =
      (if rndE (((n : ℚ) / 10 ^ 10) * 10 ^ 20) < 0 then ['-'] else []) ++
        addGroups (natChars ((rndE (((n : ℚ) / 10 ^ 10) * 10 ^ 20)).natAbs / 10 ^ 20)) ++
        (if (((padDigits 20 ((rndE (((n : ℚ) / 10 ^ 10) * 10 ^ 20)).natAbs % 10 ^ 20)).reverse.dropWhile
              (fun c => c = '0')).reverse).isEmpty then []
         else '.' :: ((padDigits 20 ((rndE (((n : ℚ) / 10 ^ 10) * 10 ^ 20)).natAbs % 10 ^ 20)).reverse.dropWhile
              (fun c => c = '0')).reverse) := rfl
  rw [hshape, hm]
  set a : ℕ := (n * 10 ^ 10).natAbs with ha
  set fr : List Char := ((padDigits 20 (a % 10 ^ 20)).reverse.dropWhile
      (fun c => c = '0')).reverse with hfr
  have hfrd : ∀ c ∈ fr, isDigitC c = true :=
    fun c hc => mem_padDigits (mem_trimZeros hc)
  obtain ⟨z, hdec, hlen⟩ := trimZeros_decomp (padDigits 20 (a % 10 ^ 20))
  rw [← hfr] at hdec hlen
  rw [length_padDigits] at hlen
  have hdv : a % 10 ^ 20 = digitsVal fr * 10 ^ z := by
    have h1 : digitsVal (padDigits 20 (a % 10 ^ 20)) = a % 10 ^ 20 % 10 ^ 20 :=
      digitsVal_padDigits 20 (a % 10 ^ 20)
    rw [Nat.mod_mod_of_dvd _ (dvd_refl _)] at h1
    rw [← h1, hdec, digitsVal_append_replicate_zero]
  rw [parse_render_shape (n * 10 ^ 10) (a / 10 ^ 20) fr hfrd]
  have hv : ((a / 10 ^ 20 : ℕ) : ℚ) + (digitsVal fr : ℚ) / 10 ^ fr.length = (a : ℚ) / 10 ^ 20 := by
    have hfrac : ((digitsVal fr : ℕ) : ℚ) / 10 ^ fr.length = ((a % 10 ^ 20 : ℕ) : ℚ) / 10 ^ 20 := by
      rw [hdv]
      push_cast
      rw [show (20 : ℕ) = fr.length + z by omega]
      rw [pow_add]
      have h10 : ((10 : ℚ) ^ fr.length) ≠ 0 := by positivity
      have h10z : ((10 : ℚ) ^ z) ≠ 0 := by positivity
      field_simp
      ring
    rw [hfrac]
    have hnat : a / 10 ^ 20 * 10 ^ 20 + a % 10 ^ 20 = a := by
      rw [Nat.mul_comm]
      exact Nat.div_add_mod a (10 ^ 20)
    have hsum : ((a / 10 ^ 20 : ℕ) : ℚ) * 10 ^ 20 + ((a % 10 ^ 20 : ℕ) : ℚ) = (a : ℚ) := by
      exact_mod_cast hnat
    have h20 : ((10 : ℚ) ^ 20) ≠ 0 := by positivity
    field_simp
    linarith [hsum]
  rw [hv, ha, signed_div_natAbs n]
/-! ### Evaluating the normalizer on rendered numbers -/

theorem normalizeChars_eval {r : List Char}
    (hws : ∀ c ∈ r, isWS c = false) (hp : ¬ '(' ∈ r)
    (hne : ¬(r.filter (fun c => !(c = ','))) = []) :
    normalizeChars r = jsNumberQ? (r.filter (fun c => !(c = ','))) := by
  have hhead : (decide (r.head? = some '(')) = false := by
    apply decide_eq_false
    intro he
    apply hp
    cases r with
    | nil => simp at he
    | cons a as =>
      simp only [List.head?_cons, Option.some.injEq] at he
      subst he
      simp
  simp only [normalizeChars]
  rw [trimChars_eq_self hws]
  rw [show (decide (r.head? = some '(') && decide (r.getLast? = some ')')) = false by
    rw [hhead]; rfl]
  simp only [Bool.false_eq_true, if_false]
  rw [if_neg (by simpa [List.isEmpty_iff] using hne)]
  cases h : jsNumberQ? (r.filter fun c => !(c = ',')) with
  | none => rfl
  | some q => rfl

theorem mem_render_shape {m : ℤ} {i : ℕ} {fr : List Char} {c : Char}
    (hfr : ∀ c ∈ fr, isDigitC c = true)
    (h : c ∈ (if m < 0 then ['-'] else []) ++ addGroups (natChars i) ++
      (if fr.isEmpty then [] else '.' :: fr)) :
    isDigitC c = true ∨ c = '-' ∨ c = ',' ∨ c = '.' := by
  rcases List.mem_append.mp h with h | h
  · rcases List.mem_append.mp h with h | h
    · by_cases hm : m < 0
      · rw [if_pos hm] at h
        simp only [List.mem_singleton] at h
        exact Or.inr (Or.inl h)
      · rw [if_neg hm] at h
        simp at h
    · rcases mem_addGroups h with h | h
      · exact Or.inl (mem_natChars h)
      · exact Or.inr (Or.inr (Or.inl h))
  · by_cases hfe : fr.isEmpty
    · rw [if_pos hfe] at h
      simp at h
    · rw [if_neg hfe] at h
      rcases List.mem_cons.mp h with rfl | h
      · exact Or.inr (Or.inr (Or.inr rfl))
      · exact Or.inl (hfr c h)

theorem render_shape_not_ws {m : ℤ} {i : ℕ} {fr : List Char}
    (hfr : ∀ c ∈ fr, isDigitC c = true) {c : Char}
    (h : c ∈ (if m < 0 then ['-'] else []) ++ addGroups (natChars i) ++
      (if fr.isEmpty then [] else '.' :: fr)) : isWS c = false := by
  rcases mem_render_shape hfr h with hd | rfl | rfl | rfl
  · exact isDigitC_not_ws hd
  · decide
  · decide
  · decide

theorem render_shape_no_paren {m : ℤ} {i : ℕ} {fr : List Char}
    (hfr : ∀ c ∈ fr, isDigitC c = true)
    (h : '(' ∈ (if m < 0 then ['-'] else []) ++ addGroups (natChars i) ++
      (if fr.isEmpty then [] else '.' :: fr)) : False := by
  rcases mem_render_shape hfr h with hd | he | he | he
  · exact absurd rfl (isDigitC_ne_lparen hd)
  · exact absurd he (by decide)
  · exact absurd he (by decide)
  · exact absurd he (by decide)

theorem render_shape_strip_ne_nil (m : ℤ) (i : ℕ) (fr : List Char)
    (hfr : ∀ c ∈ fr, isDigitC c = true) :
    ¬(((if m < 0 then ['-'] else []) ++ addGroups (natChars i) ++
      (if fr.isEmpty then [] else '.' :: fr)).filter (fun c => !(c = ','))) = [] := by
  intro he
  rw [show ((if m < 0 then ['-'] else []) ++ addGroups (natChars i) ++
      (if fr.isEmpty then [] else '.' :: fr)).filter (fun c => !(c = ',')) =
      stripCommas ((if m < 0 then ['-'] else []) ++ addGroups (natChars i) ++
      (if fr.isEmpty then [] else '.' :: fr)) from rfl,
    stripCommas_render_shape m i fr hfr] at he
  rcases List.append_eq_nil.mp he with ⟨he1, he2⟩
  rcases List.append_eq_nil.mp he1 with ⟨he3, he4⟩
  exact natChars_ne_nil i he4

theorem normalize_render_shape (m : ℤ) (i : ℕ) (fr : List Char)
    (hfr : ∀ c ∈ fr, isDigitC c = true) :
    normalizeChars ((if m < 0 then ['-'] else []) ++ addGroups (natChars i) ++
        (if fr.isEmpty then [] else '.' :: fr)) =
      some (if m < 0 then -((i : ℚ) + (digitsVal fr : ℚ) / 10 ^ fr.length)
            else ((i : ℚ) + (digitsVal fr : ℚ) / 10 ^ fr.length)) := by
  rw [normalizeChars_eval (fun c hc => render_shape_not_ws hfr hc)
    (fun hc => render_shape_no_paren hfr hc) (render_shape_strip_ne_nil m i fr hfr)]
  exact parse_render_shape m i fr hfr

theorem fmtFixedInt_eq_shape (m : ℤ) (k : ℕ) :
    fmtFixedInt m k = (if m < 0 then ['-'] else []) ++
      addGroups (natChars (m.natAbs / 10 ^ k)) ++
      (if (padDigits k (m.natAbs % 10 ^ k)).isEmpty then []
       else '.' :: padDigits k (m.natAbs % 10 ^ k)) := by
  simp only [fmtFixedInt]
  congr 1
  by_cases hk : k = 0
  · subst hk
    rfl
  · rw [if_neg hk, if_neg]
    intro he
    rw [List.isEmpty_iff] at he
    have := length_padDigits k (m.natAbs % 10 ^ k)
    rw [he] at this
    exact hk this.symm


theorem normalize_fmtFixedInt (m : ℤ) (k : ℕ) :
    normalizeChars (fmtFixedInt m k) = some ((m : ℚ) / 10 ^ k) := by
  have hws : ∀ c ∈ fmtFixedInt m k, isWS c = false := by
    intro c hc
    rw [fmtFixedInt_eq_shape] at hc
    exact render_shape_not_ws (fun c hc => mem_padDigits hc) hc
  have hp : ¬ '(' ∈ fmtFixedInt m k := by
    intro hc
    rw [fmtFixedInt_eq_shape] at hc
    exact render_shape_no_paren (fun c hc => mem_padDigits hc) hc
  have hne : ¬((fmtFixedInt m k).filter (fun c => !(c = ','))) = [] := by
    rw [fmtFixedInt_eq_shape]
    exact render_shape_strip_ne_nil m _ _ (fun c hc => mem_padDigits hc)
  rw [normalizeChars_eval hws hp hne]
  exact parse_fmtFixedInt m k

theorem fmtAll_eq_shape (q : ℚ) :
    fmtAll q = (if rndE (q * 10 ^ 20) < 0 then ['-'] else []) ++
      addGroups (natChars ((rndE (q * 10 ^ 20)).natAbs / 10 ^ 20)) ++
      (if (((padDigits 20 ((rndE (q * 10 ^ 20)).natAbs % 10 ^ 20)).reverse.dropWhile
          (fun c => c = '0')).reverse).isEmpty then []
       else '.' :: ((padDigits 20 ((rndE (q * 10 ^ 20)).natAbs % 10 ^ 20)).reverse.dropWhile
          (fun c => c = '0')).reverse) := rfl

theorem normalize_fmtAll (n : ℤ) :
    normalizeChars (fmtAll ((n : ℚ) / 10 ^ 10)) = some ((n : ℚ) / 10 ^ 10) := by
  have hfrd : ∀ c ∈ ((padDigits 20
      ((rndE (((n : ℚ) / 10 ^ 10) * 10 ^ 20)).natAbs % 10 ^ 20)).reverse.dropWhile
      (fun c => c = '0')).reverse, isDigitC c = true :=
    fun c hc => mem_padDigits (mem_trimZeros hc)
  have hws : ∀ c ∈ fmtAll ((n : ℚ) / 10 ^ 10), isWS c = false := by
    intro c hc
    rw [fmtAll_eq_shape] at hc
    exact render_shape_not_ws hfrd hc
  have hp : ¬ '(' ∈ fmtAll ((n : ℚ) / 10 ^ 10) := by
    intro hc
    rw [fmtAll_eq_shape] at hc
    exact render_shape_no_paren hfrd hc
  have hne : ¬((fmtAll ((n : ℚ) / 10 ^ 10)).filter (fun c => !(c = ','))) = [] := by
    rw [fmtAll_eq_shape]
    exact render_shape_strip_ne_nil _ _ _ hfrd
  rw [normalizeChars_eval hws hp hne]
  exact parse_fmtAll n

/-! ### The fraction part of a rendered number -/

theorem sign_groups_not_dot {m : ℤ} {i : ℕ} :
    ∀ c ∈ (if m < 0 then ['-'] else []) ++ addGroups (natChars i),
      (fun c => !(c = '.')) c = true := by
  intro c hc
  rcases List.mem_append.mp hc with hc | hc
  · by_cases hm : m < 0
    · rw [if_pos hm] at hc
      simp only [List.mem_singleton] at hc
      subst hc
      decide
    · rw [if_neg hm] at hc
      simp at hc
  · rcases mem_addGroups hc with hc | rfl
    · simpa using isDigitC_ne_dot (mem_natChars hc)
    · decide

theorem fracPart_render_shape (m : ℤ) (i : ℕ) (fr : List Char) :
    fracPart ((if m < 0 then ['-'] else []) ++ addGroups (natChars i) ++
      (if fr.isEmpty then [] else '.' :: fr)) = fr := by
  unfold fracPart
  by_cases hfe : fr.isEmpty
  · rw [if_pos hfe, List.append_nil,
      dropWhile_eq_nil_of_all (@sign_groups_not_dot m i)]
    rw [List.isEmpty_iff] at hfe
    rw [hfe]
    rfl
  · rw [if_neg hfe,
      dropWhile_append_cons fr (@sign_groups_not_dot m i) (by decide)]
    rfl


/-! ### Arithmetic facts about the transform pipeline -/

theorem cleanFloat_fix (m : ℤ) : cleanFloat ((m : ℚ) / 10 ^ 10) = (m : ℚ) / 10 ^ 10 := by
  unfold cleanFloat
  have harg : ((m : ℚ) / 10 ^ 10) * 10 ^ 10 = (m : ℚ) := by field_simp
  rw [harg]
  have hfl : ⌊(m : ℚ) + 1 / 2⌋ = m := by
    rw [add_comm, Int.floor_add_int]
    norm_num
  rw [hfl]

theorem transformNum_image (opts : ProcessingOptions) (q : ℚ) :
    ∃ m : ℤ, transformNum opts q = (m : ℚ) / 10 ^ 10 := by
  unfold transformNum cleanFloat
  by_cases h : opts.forceNegative = true ∧
      ¬((⌊q * opts.multiplier * 10 ^ 10 + 1 / 2⌋ : ℚ) / 10 ^ 10) = 0
  · rw [if_pos h]
    refine ⟨-|⌊q * opts.multiplier * 10 ^ 10 + 1 / 2⌋|, ?_⟩
    rw [abs_div, abs_of_pos (by positivity : (0 : ℚ) < 10 ^ 10)]
    push_cast
    rw [neg_div]
  · rw [if_neg h]
    exact ⟨⌊q * opts.multiplier * 10 ^ 10 + 1 / 2⌋, rfl⟩

theorem transformNum_nonpos (opts : ProcessingOptions) (q : ℚ)
    (hFN : opts.forceNegative = true) : transformNum opts q ≤ 0 := by
  unfold transformNum
  by_cases h : opts.forceNegative = true ∧ ¬cleanFloat (q * opts.multiplier) = 0
  · rw [if_pos h]
    exact neg_nonpos.mpr (abs_nonneg _)
  · rw [if_neg h]
    push_neg at h
    rw [h hFN]

theorem transformNum_fix (opts : ProcessingOptions) (hmul : opts.multiplier = 1)
    (d : ℚ) (m : ℤ) (hd : d = (m : ℚ) / 10 ^ 10)
    (hFN : opts.forceNegative = true → d ≤ 0) :
    transformNum opts d = d := by
  unfold transformNum
  have hclean : cleanFloat (d * opts.multiplier) = d := by
    rw [hmul, mul_one, hd, cleanFloat_fix]
  rw [hclean]
  by_cases h : opts.forceNegative = true ∧ ¬d = 0
  · rw [if_pos h]
    have hle : d ≤ 0 := hFN h.1
    rw [abs_of_nonpos hle, neg_neg]
  · rw [if_neg h]

theorem rndE_div_image (m : ℤ) (k : ℕ) :
    ∃ m2 : ℤ, ((rndE (((m : ℚ) / 10 ^ 10) * 10 ^ k) : ℤ) : ℚ) / 10 ^ k =
      (m2 : ℚ) / 10 ^ 10 := by
  by_cases hk : k ≤ 10
  · refine ⟨rndE (((m : ℚ) / 10 ^ 10) * 10 ^ k) * 10 ^ (10 - k), ?_⟩
    have h1 : ((10 : ℚ) ^ (10 : ℕ)) = 10 ^ k * 10 ^ (10 - k) := by
      rw [← pow_add]
      congr 1
      omega
    push_cast
    rw [h1, mul_div_mul_right _ _ (by positivity : ((10 : ℚ) ^ (10 - k)) ≠ 0)]
  · have harg : ((m : ℚ) / 10 ^ 10) * 10 ^ k = ((m * 10 ^ (k - 10) : ℤ) : ℚ) := by
      have h2 : ((10 : ℚ) ^ k) = 10 ^ (10 : ℕ) * 10 ^ (k - 10) := by
        rw [← pow_add]
        congr 1
        omega
      push_cast
      rw [h2]
      field_simp
      ring
    rw [harg, rndE_intCast]
    refine ⟨m, ?_⟩
    have h2 : ((10 : ℚ) ^ k) = 10 ^ (k - 10) * 10 ^ (10 : ℕ) := by
      rw [← pow_add]
      congr 1
      omega
    push_cast
    rw [div_eq_div_iff (by positivity) (by positivity), h2]
    ring

theorem rndE_div_nonpos {c : ℚ} (hc : c ≤ 0) (k : ℕ) :
    ((rndE (c * 10 ^ k) : ℤ) : ℚ) / 10 ^ k ≤ 0 := by
  have h1 : ((rndE (c * 10 ^ k) : ℤ) : ℚ) ≤ 0 := by
    exact_mod_cast rndE_nonpos (mul_nonpos_of_nonpos_of_nonneg hc (by positivity))
  have h2 : (0 : ℚ) ≤ 10 ^ k := by positivity
  rw [div_nonpos_iff]
  exact Or.inr ⟨h1, h2⟩

theorem fmtFixed_div (m : ℤ) (k : ℕ) : fmtFixed k ((m : ℚ) / 10 ^ k) = fmtFixedInt m k := by
  unfold fmtFixed
  have harg : ((m : ℚ) / 10 ^ k) * 10 ^ k = (m : ℚ) := by field_simp
  rw [harg, rndE_intCast]

theorem renderNum_fixed (opts : ProcessingOptions) (k : ℕ)
    (hk : opts.decimalPlaces = (k : ℤ)) (q : ℚ) : renderNum opts q = fmtFixed k q := by
  unfold renderNum
  rw [hk, if_neg (by omega)]
  simp

theorem renderNum_all (opts : ProcessingOptions) (hk : opts.decimalPlaces = -1) (q : ℚ) :
    renderNum opts q = fmtAll q := by
  unfold renderNum
  rw [hk, if_pos rfl]


/-! ### Parenthesis wrapping -/

theorem normalize_paren_wrap (s : List Char)
    (hWS : ∀ c ∈ s, isWS c = false) (hp : ¬ '(' ∈ s) :
    normalizeChars ('(' :: s ++ [')']) = (normalizeChars s).map (fun q => -q) := by
  have hWS2 : ∀ c ∈ '(' :: s ++ [')'], isWS c = false := by
    intro c hc
    rcases List.mem_cons.mp hc with rfl | hc
    · decide
    · rcases List.mem_append.mp hc with hc | hc
      · exact hWS c hc
      · simp only [List.mem_singleton] at hc
        subst hc
        decide
  have hlast : ('(' :: s ++ [')']).getLast? = some ')' := by
    rw [show '(' :: s ++ [')'] = ('(' :: s) ++ [')'] by simp]
    exact List.getLast?_concat _
  have hisNeg : (decide (('(' :: s ++ [')']).head? = some '(') &&
      decide (('(' :: s ++ [')']).getLast? = some ')')) = true := by
    rw [hlast]
    simp
  have hisNeg2 : (decide (s.head? = some '(') && decide (s.getLast? = some ')')) = false := by
    cases hs : s.head? with
    | none => simp [hs]
    | some c =>
      have hc : c ∈ s := by
        cases s with
        | nil => simp at hs
        | cons a as =>
          simp only [List.head?_cons, Option.some.injEq] at hs
          subst hs
          simp
      have hcne : ¬c = '(' := fun e => hp (e ▸ hc)
      simp [hs, hcne]
  have hdrop : (('(' :: s ++ [')']).drop 1).dropLast = s := by
    simp only [List.drop_one, List.tail_cons]
    exact List.dropLast_concat
  simp only [normalizeChars, trimChars_eq_self hWS2, trimChars_eq_self hWS, hisNeg, hisNeg2,
    if_true, Bool.false_eq_true, if_false, hdrop]
  by_cases he : (s.filter (fun c => !(c = ','))).isEmpty
  · rw [if_pos he, if_pos he]
    rfl
  · rw [if_neg he, if_neg he]
    cases h : jsNumberQ? (s.filter fun c => !(c = ',')) with
    | none => rfl
    | some q => rfl


/-! ### Concrete scenario checks from the specification -/

example : normalizeChars ('1' :: ',' :: '2' :: '3' :: '4' :: '.' :: '5' :: []) =
    some (2469 / 2) := by
  simp +decide [normalizeChars, trimChars, jsNumberQ?, decCore?, digitsVal, digitVal,
    isWS, isDigitC]
  norm_num

example : normalizeChars ('(' :: '1' :: ',' :: '0' :: '0' :: '0' :: ')' :: []) =
    some (-1000) := by
  simp +decide [normalizeChars, trimChars, jsNumberQ?, decCore?, digitsVal, digitVal,
    isWS, isDigitC]

example : normalizeChars ('(' :: '-' :: '5' :: ')' :: []) = some 5 := by
  simp +decide [normalizeChars, trimChars, jsNumberQ?, decCore?, digitsVal, digitVal,
    isWS, isDigitC]

example : normalizeChars (' ' :: ' ' :: []) = none := by decide

example : normalizeChars ('a' :: 'b' :: []) = none := by decide

example : toTitleCase "TOTAL REVENUE".toList = "Total Revenue".toList := by decide

example : toTitleCase "cost of goods".toList = "Cost of Goods".toList := by decide

example : fmtFixedInt (-123450) 2 = "-1,234.50".toList := by decide

example : fmtFixedInt 500000 2 = "5,000.00".toList := by decide

example : fmtAll (5 / 4) = "1.25".toList := by
  have hm : rndE (5 / 4 * 10 ^ 20) = 125 * 10 ^ 18 := by
    norm_num [rndE]
  simp only [fmtAll, hm]
  decide

/-! ### Claim theorems -/

/-- C1: for every numeric string of digits with optional decimal point and
optional thousands-separator commas (no existing sign), normalizing the
parenthesized form yields exactly the negation of the number obtained by
normalizing the string itself. -/
theorem C1_paren_wrap_negates (s : List Char)
    (hchars : ∀ c ∈ s, isDigitC c = true ∨ c = ',' ∨ c = '.')
    (q : ℚ) (hs : normalizeChars s = some q) :
    normalizeChars ('(' :: s ++ [')']) = some (-q) := by
  have hWS : ∀ c ∈ s, isWS c = false := by
    intro c hc
    rcases hchars c hc with hd | rfl | rfl
    · exact isDigitC_not_ws hd
    · decide
    · decide
  have hp : ¬ '(' ∈ s := by
    intro hmem
    rcases hchars '(' hmem with hd | he | he
    · exact absurd rfl (isDigitC_ne_lparen hd)
    · exact absurd he (by decide)
    · exact absurd he (by decide)
  rw [normalize_paren_wrap s hWS hp, hs]
  rfl

/-- Witness for C1 at the concrete numeric string 7. -/
theorem C1_paren_wrap_negates_witness :
    normalizeChars ('(' :: ['7'] ++ [')']) = some (-7) :=
  C1_paren_wrap_negates ['7'] (by decide) 7
    (by simp +decide [normalizeChars, trimChars, jsNumberQ?, decCore?, digitsVal, digitVal,
      isWS, isDigitC])

/-- C4 counterexample: the string (-5) is parenthesized and already contains
a negative number, yet normalization yields the positive value 5 — the
embedded minus is negated again by the parenthesis sign, contradicting the
claim that the result is negative and not double-negated. -/
theorem C4_counterexample_double_negation :
    normalizeChars ['(', '-', '5', ')'] = some 5 ∧ (0 : ℚ) < 5 := by
  constructor
  · simp +decide [normalizeChars, trimChars, jsNumberQ?, decCore?, digitsVal, digitVal,
      isWS, isDigitC]
  · norm_num

/-- C4 amended: both sign sources apply.  Normalization negates the signed
parse of the parenthesized content, so a parenthesized value that already
carries an embedded minus is double-negated: for every string of digits,
commas, dots and sign characters, normalize of the wrapped form is the
negation of normalize of the content, even when the content parses to a
negative number. -/
theorem C4_amended_sign_composition (s : List Char)
    (hchars : ∀ c ∈ s, isDigitC c = true ∨ c = ',' ∨ c = '.' ∨ c = '-' ∨ c = '+')
    (q : ℚ) (hs : normalizeChars s = some q) :
    normalizeChars ('(' :: s ++ [')']) = some (-q) := by
  have hWS : ∀ c ∈ s, isWS c = false := by
    intro c hc
    rcases hchars c hc with hd | rfl | rfl | rfl | rfl
    · exact isDigitC_not_ws hd
    · decide
    · decide
    · decide
    · decide
  have hp : ¬ '(' ∈ s := by
    intro hmem
    rcases hchars '(' hmem with hd | he | he | he | he
    · exact absurd rfl (isDigitC_ne_lparen hd)
    · exact absurd he (by decide)
    · exact absurd he (by decide)
    · exact absurd he (by decide)
    · exact absurd he (by decide)
  rw [normalize_paren_wrap s hWS hp, hs]
  rfl

/-- Witness for the amended C4 at the already-negative content -5: the
wrapped form normalizes to +5. -/
theorem C4_amended_sign_composition_witness :
    normalizeChars ('(' :: ['-', '5'] ++ [')']) = some (-(-5)) :=
  C4_amended_sign_composition ['-', '5'] (by decide) (-5)
    (by simp +decide [normalizeChars, trimChars, jsNumberQ?, decCore?, digitsVal, digitVal,
      isWS, isDigitC])

/-- Helper: an index-shifted mapIdx whose function ignores the index is a
plain map. -/
theorem mapIdx_eq_map_of_const {α β : Type} (f : ℕ → α → β) (g : α → β)
    (hf : ∀ i x, f i x = g x) : ∀ l : List α, l.mapIdx f = l.map g := by
  intro l
  induction l generalizing f with
  | nil => rfl
  | cons a as ih =>
    rw [List.mapIdx_cons, List.map_cons, hf 0 a]
    rw [ih (fun i x => f (i + 1) x) (fun i x => hf (i + 1) x)]

/-- C8: the title caser implements the specified rule: split on single
spaces, capitalize the first word unconditionally, keep every later word
fully lowercase when it lies in the fixed minor-word set, and otherwise
capitalize its first letter and lowercase the remainder. -/
theorem C8_toTitleCase_follows_rule (s : List Char) : toTitleCase s = titleCaseSpec s := by
  unfold toTitleCase titleCaseSpec
  cases h : splitSp s with
  | nil => rfl
  | cons w ws =>
    simp only [List.mapIdx_cons, lt_self_iff_false, false_and, if_false]
    congr 1
    congr 1
    exact mapIdx_eq_map_of_const _ _ (fun i x => by simp) ws

/-- C9: in the selection state machine, switching to a different active
table index empties the selection, replacing the extracted data resets to
index 0 with an empty selection, and the initial state is no selection on
table 0. -/
theorem C9_selection_invariants (st : SelectionState) (i : ℕ)
    (hne : ¬i = st.activeTableIndex) :
    (stepView st (ViewEvent.switchTable i)).selectedCells = [] ∧
    stepView st ViewEvent.replaceData = ⟨0, []⟩ ∧
    initialViewState = ⟨0, []⟩ := by
  refine ⟨?_, rfl, rfl⟩
  show (if i = st.activeTableIndex then st else
    ({ activeTableIndex := i, selectedCells := [] } : SelectionState)).selectedCells = []
  rw [if_neg hne]

/-- Witness for C9 at a concrete state with one selected cell. -/
theorem C9_selection_invariants_witness :
    (stepView ⟨0, [(1, 2)]⟩ (ViewEvent.switchTable 1)).selectedCells = [] ∧
    stepView ⟨0, [(1, 2)]⟩ ViewEvent.replaceData = ⟨0, []⟩ ∧
    initialViewState = ⟨0, []⟩ :=
  C9_selection_invariants ⟨0, [(1, 2)]⟩ 1 (by decide)


/-- C10: every copy and export operation removes every comma from each
emitted cell value — the single-cell copy, the copy-selection lines and the
full-table body cells all pass the formatted value through the comma strip,
so the emitted text never contains a comma; and for non-numeric text (with
title casing off) the emitted text is exactly the original string with all
commas deleted, never the original text. -/
theorem C10_export_removes_commas (opts : ProcessingOptions) (v : Option CellValue)
    (s : List Char) :
    ¬ ',' ∈ copyText (getFormattedValueU opts v) ∧
    ¬ ',' ∈ stripCommas (getFormattedValueU opts v) ∧
    (normalizeChars s = none → opts.titleCase = false →
      stripCommas (getFormattedValueU opts (some (CellValue.str s))) =
        s.filter (fun c => !(c = ','))) := by
  have hnc : ¬ ',' ∈ stripCommas (getFormattedValueU opts v) := by
    intro h
    have := (List.mem_filter.mp h).2
    simp at this
  refine ⟨hnc, hnc, ?_⟩
  intro hn ht
  show stripCommas (getFormattedValue opts (CellValue.str s)) = s.filter (fun c => !(c = ','))
  simp only [getFormattedValue, hn, ht]
  rfl

/-- Witness for C10 at the text cell Revenue, net with title casing off. -/
theorem C10_export_removes_commas_witness :
    stripCommas (getFormattedValueU ⟨1, 2, [], false, false⟩
        (some (CellValue.str "Revenue, net".toList))) =
      "Revenue, net".toList.filter (fun c => !(c = ',')) :=
  (C10_export_removes_commas ⟨1, 2, [], false, false⟩ none "Revenue, net".toList).2.2
    (by decide) rfl

/-- C7 counterexample: a table with header A and one row that lacks the key
emits the literal text undefined for that cell in the full-table copy, not
an empty cell. -/
theorem C7_counterexample_undefined_cell :
    copyTableText ⟨1, 2, [], false, false⟩ ⟨[['A']], [[]], none, none⟩ =
      'A' :: '\n' :: "undefined".toList ∧
    ¬copyTableText ⟨1, 2, [], false, false⟩ ⟨[['A']], [[]], none, none⟩ =
      'A' :: '\n' :: [] := by
  constructor
  · simp +decide [copyTableText, formatHeader, getFormattedValueU, stripCommas]
  · simp +decide [copyTableText, formatHeader, getFormattedValueU, stripCommas]

/-- C7 amended: the extraction adapter substitutes the empty string for
missing positions, and a cell holding the empty string is exported as an
empty cell with no error; a header key genuinely absent from a row is
exported as the literal text undefined rather than as an empty cell. -/
theorem C7_amended_missing_value (opts : ProcessingOptions) :
    stripCommas (getFormattedValueU opts (some (CellValue.str []))) = [] ∧
    stripCommas (getFormattedValueU opts none) = "undefined".toList := by
  constructor
  · show stripCommas (getFormattedValue opts (CellValue.str [])) = []
    simp only [getFormattedValue, show normalizeChars [] = none from rfl]
    cases ht : opts.titleCase
    · rfl
    · rw [if_pos rfl]
      rfl
  · rfl


/-- Helper: the copy-selection comparator is transitive. -/
theorem cellLe_trans (a b c : ℕ × ℕ) (hab : cellLe a b) (hbc : cellLe b c) :
    cellLe a c := by
  simp only [cellLe, decide_eq_true_eq] at hab hbc ⊢
  omega

/-- Helper: the copy-selection comparator is total. -/
theorem cellLe_total (a b : ℕ × ℕ) : cellLe a b || cellLe b a := by
  simp only [cellLe, Bool.or_eq_true, decide_eq_true_eq]
  omega

/-- C6: the copy-selection output is canonical.  For any two selections that
are permutations of each other (the same selected set in different insertion
orders) the emitted text is identical; the emission order is the sort by row
index then column index, a permutation of the selection, and each selected
cell contributes its comma-stripped formatted value as one line in that
order. -/
theorem C6_copy_selected_canonical_order (opts : ProcessingOptions) (tbl : TableData)
    (sel sel2 : List (ℕ × ℕ)) (hperm : sel.Perm sel2) :
    copySelectedText opts tbl sel = copySelectedText opts tbl sel2 ∧
    (sel.mergeSort cellLe).Sorted cellLeProp ∧
    (sel.mergeSort cellLe).Perm sel ∧
    copySelectedText opts tbl sel = List.intercalate ['\n']
      ((sel.mergeSort cellLe).map fun rc =>
        stripCommas (getFormattedValueU opts (cellAt tbl rc.1 rc.2))) := by
  have hsorted : ∀ l : List (ℕ × ℕ), (l.mergeSort cellLe).Sorted cellLeProp := by
    intro l
    have h := List.sorted_mergeSort cellLe_trans cellLe_total l
    refine h.imp ?_
    intro a b hab
    simpa only [cellLe, decide_eq_true_eq] using hab
  haveI : IsAntisymm (ℕ × ℕ) cellLeProp := by
    constructor
    intro a b hab hba
    rcases a with ⟨a1, a2⟩
    rcases b with ⟨b1, b2⟩
    simp only [cellLeProp] at hab hba
    have h1 : a1 = b1 := by omega
    have h2 : a2 = b2 := by omega
    rw [h1, h2]
  have hsortEq : sel.mergeSort cellLe = sel2.mergeSort cellLe := by
    apply List.eq_of_perm_of_sorted _ (hsorted sel) (hsorted sel2)
    exact (List.mergeSort_perm sel cellLe).trans
      (hperm.trans (List.mergeSort_perm sel2 cellLe).symm)
  refine ⟨?_, hsorted sel, List.mergeSort_perm sel cellLe, rfl⟩
  unfold copySelectedText
  rw [hsortEq]


/-- Witness for C6 at the scenario selection made in order (2,1), (0,0),
(1,3): the emitted text equals that of the canonically ordered selection. -/
theorem C6_copy_selected_canonical_order_witness :
    copySelectedText ⟨1, 2, [], false, false⟩ ⟨[], [], none, none⟩
        [(2, 1), (0, 0), (1, 3)] =
      copySelectedText ⟨1, 2, [], false, false⟩ ⟨[], [], none, none⟩
        [(0, 0), (1, 3), (2, 1)] :=
  (C6_copy_selected_canonical_order ⟨1, 2, [], false, false⟩ ⟨[], [], none, none⟩
    [(2, 1), (0, 0), (1, 3)] [(0, 0), (1, 3), (2, 1)] (by decide)).1


/-- Helper: a rendered non-negative value contains no minus sign. -/
theorem neg_not_mem_render_shape {m : ℤ} {i : ℕ} {fr : List Char}
    (hfr : ∀ c ∈ fr, isDigitC c = true) (hm : ¬m < 0) :
    ¬ '-' ∈ (if m < 0 then ['-'] else []) ++ addGroups (natChars i) ++
      (if fr.isEmpty then [] else '.' :: fr) := by
  intro h
  rcases List.mem_append.mp h with h | h
  · rcases List.mem_append.mp h with h | h
    · rw [if_neg hm] at h
      simp at h
    · rcases mem_addGroups h with h | he
      · exact absurd rfl (isDigitC_ne_minus (mem_natChars h))
      · exact absurd he (by decide)
  · by_cases hfe : fr.isEmpty
    · rw [if_pos hfe] at h
      simp at h
    · rw [if_neg hfe] at h
      rcases List.mem_cons.mp h with he | h
      · exact absurd he (by decide)
      · exact absurd rfl (isDigitC_ne_minus (hfr '-' h))

/-- Helper: the k = 0 test on the fixed-precision fraction tail agrees with
the emptiness test used by the shape lemmas, since padDigits has length k. -/
theorem fixedSigned_tail_shape (k x : ℕ) :
    (if k = 0 then ([] : List Char) else '.' :: padDigits k x) =
      (if (padDigits k x).isEmpty then [] else '.' :: padDigits k x) := by
  by_cases hk : k = 0
  · subst hk
    rfl
  · rw [if_neg hk, if_neg]
    intro he
    rw [List.isEmpty_iff] at he
    have hl := length_padDigits k x
    rw [he] at hl
    exact hk hl.symm

/-- Helper: the sign-aware transform agrees with the ℚ pipeline on the
numeric value; the refinement only adds the IEEE sign bit. -/
theorem transformSigned_val (opts : ProcessingOptions) (b : Bool) (q : ℚ) :
    (transformSigned opts b q).2 = transformNum opts q := by
  simp only [transformSigned, mulSigned, cleanFloatSigned, forceNegSigned,
    transformNum, cleanFloat]
  by_cases h : opts.forceNegative = true ∧
      ¬((⌊q * opts.multiplier * 10 ^ 10 + 1 / 2⌋ : ℚ) / 10 ^ 10) = 0
  · rw [if_pos h, if_pos h]
  · rw [if_neg h, if_neg h]

/-- Helper: the sign-aware fixed renderer selection, as renderNum_fixed. -/
theorem renderSigned_fixed (opts : ProcessingOptions) (k : ℕ)
    (hk : opts.decimalPlaces = (k : ℤ)) (b : Bool) (q : ℚ) :
    renderSigned opts b q = fmtFixedSigned k b q := by
  unfold renderSigned
  rw [hk, if_neg (by omega)]
  simp

/-- Helper: the sign-aware renderer at unsigned zero never writes a minus
sign, for every decimal-places setting. -/
theorem no_minus_renderSigned_zero (opts : ProcessingOptions) :
    ¬ '-' ∈ renderSigned opts false 0 := by
  have hcond : ¬((0 : ℚ) < 0 ∨ (True ∧ false = true)) := by simp
  by_cases hk : opts.decimalPlaces = -1
  · unfold renderSigned
    rw [if_pos hk]
    simp only [fmtAllSigned]
    rw [if_neg hcond]
    have h2 := @neg_not_mem_render_shape 0
      ((rndE ((0 : ℚ) * 10 ^ 20)).natAbs / 10 ^ 20)
      (((padDigits 20 ((rndE ((0 : ℚ) * 10 ^ 20)).natAbs % 10 ^ 20)).reverse.dropWhile
        (fun c => c = '0')).reverse)
      (fun c hc => mem_padDigits (mem_trimZeros hc)) (by omega)
    rwa [if_neg (by omega : ¬(0 : ℤ) < 0)] at h2
  · unfold renderSigned
    rw [if_neg hk]
    simp only [fmtFixedSigned]
    rw [if_neg hcond, fixedSigned_tail_shape]
    have h2 := @neg_not_mem_render_shape 0
      ((rndE ((0 : ℚ) * 10 ^ opts.decimalPlaces.toNat)).natAbs /
        10 ^ opts.decimalPlaces.toNat)
      (padDigits opts.decimalPlaces.toNat
        ((rndE ((0 : ℚ) * 10 ^ opts.decimalPlaces.toNat)).natAbs %
          10 ^ opts.decimalPlaces.toNat))
      (fun c hc => mem_padDigits hc) (by omega)
    rwa [if_neg (by omega : ¬(0 : ℤ) < 0)] at h2

/-- Helper: with a positive multiplier the sign-aware pipeline fixes a
signed zero: the product keeps the bit, Math.round of a signed zero keeps
it, and the forceNegative guard skips a zero value. -/
theorem transformSigned_zero_bit (opts : ProcessingOptions)
    (hmul : 0 < opts.multiplier) (b : Bool) :
    transformSigned opts b 0 = (b, 0) := by
  have hmd : decide (opts.multiplier < 0) = false :=
    decide_eq_false (not_lt.mpr (le_of_lt hmul))
  have h0 : decide ((0 : ℚ) * opts.multiplier < 0) = false := by
    rw [zero_mul]
    exact decide_eq_false (lt_irrefl 0)
  have h1 : decide ((0 : ℚ) * opts.multiplier = 0) = true := by
    rw [zero_mul]
    exact decide_eq_true rfl
  have hr : ⌊(0 : ℚ) * opts.multiplier * 10 ^ 10 + 1 / 2⌋ = 0 := by
    rw [zero_mul, zero_mul]
    norm_num
  have hg : ¬(opts.forceNegative = true ∧ ¬((0 : ℤ) : ℚ) / 10 ^ 10 = 0) := by
    intro hcon
    exact hcon.2 (by norm_num)
  simp only [transformSigned, mulSigned, cleanFloatSigned, forceNegSigned,
    hmd, h0, h1, hr, Bool.xor_false]
  norm_num

/-- C3 counterexample: with forceNegative enabled, multiplier 1 and two
decimal places, the input "(0)" — whose normalized numeric value is zero —
is turned into IEEE negative zero by the accounting negation, passes the
multiplier, cleanFloat and the forceNegative guard unchanged, and renders
as the signed negative-zero string "-0.00". -/
theorem C3_counterexample_signed_zero :
    normalizeChars ['(', '0', ')'] = some 0 ∧
    normalizeSigned ['(', '0', ')'] = some (true, 0) ∧
    getFormattedValueSigned ⟨1, 2, [], true, false⟩ (CellValue.str ['(', '0', ')']) =
      ['-', '0', '.', '0', '0'] := by
  have hn : normalizeSigned ['(', '0', ')'] = some (true, 0) := by
    simp +decide [normalizeSigned, trimChars, jsNumberSigned?, decCore?, digitsVal,
      digitVal, isWS, isDigitC]
  refine ⟨?_, hn, ?_⟩
  · simp +decide [normalizeChars, trimChars, jsNumberQ?, decCore?, digitsVal,
      digitVal, isWS, isDigitC]
  · have ht : transformSigned ⟨1, 2, [], true, false⟩ true 0 = (true, 0) :=
      transformSigned_zero_bit ⟨1, 2, [], true, false⟩ (by norm_num) true
    have hm : rndE ((0 : ℚ) * 10 ^ 2) = 0 := by
      rw [show ((0 : ℚ) * 10 ^ 2) = ((0 : ℤ) : ℚ) by norm_num, rndE_intCast]
    simp only [getFormattedValueSigned, hn, ht]
    rw [renderSigned_fixed ⟨1, 2, [], true, false⟩ 2 rfl]
    simp only [fmtFixedSigned, hm]
    rw [if_pos (Or.inr ⟨trivial, trivial⟩)]
    decide

/-- C3 amended: with forceNegative enabled the transform pipeline replaces
every non-zero converted value by its negative absolute value and leaves a
zero value as zero; and the rendered output for an input that normalizes to
unsigned zero — such as the scenario's plain "0", or a numeric zero cell —
never carries a minus sign, for every positive multiplier and every
decimal-places setting.  The restriction to unsigned zero is necessary:
an input carrying IEEE negative zero, such as "(0)" or "-0", renders as
the signed string "-0.00", as the counterexample shows. -/
theorem C3_amended_force_negative_unsigned_zero (opts : ProcessingOptions)
    (hFN : opts.forceNegative = true) (hmul : 0 < opts.multiplier) (q : ℚ)
    (v : CellValue) (hv : signedOfCell v = some (false, 0)) :
    (¬cleanFloat (q * opts.multiplier) = 0 →
      transformNum opts q = -|cleanFloat (q * opts.multiplier)|) ∧
    (cleanFloat (q * opts.multiplier) = 0 → transformNum opts q = 0) ∧
    ¬ '-' ∈ getFormattedValueSigned opts v := by
  refine ⟨?_, ?_, ?_⟩
  · intro hnz
    unfold transformNum
    rw [if_pos ⟨hFN, hnz⟩]
  · intro hz
    unfold transformNum
    rw [if_neg (fun hcon => hcon.2 hz), hz]
  · have ht := transformSigned_zero_bit opts hmul false
    cases v with
    | num q0 =>
      have hq0 : q0 = 0 := by
        have h2 := hv
        simp only [signedOfCell, Option.some.injEq, Prod.mk.injEq] at h2
        exact h2.2
      subst hq0
      have hb0 : decide ((0 : ℚ) < 0) = false := decide_eq_false (lt_irrefl 0)
      simp only [getFormattedValueSigned, hb0, ht]
      exact no_minus_renderSigned_zero opts
    | str s =>
      have hs : normalizeSigned s = some (false, 0) := by
        simpa [signedOfCell] using hv
      simp only [getFormattedValueSigned, hs, ht]
      exact no_minus_renderSigned_zero opts

/-- Witness for the amended C3 at forceNegative on, multiplier 1, two
decimal places, the numeric zero cell and the probe value 5. -/
theorem C3_amended_force_negative_unsigned_zero_witness :
    (¬cleanFloat (5 * (⟨1, 2, [], true, false⟩ : ProcessingOptions).multiplier) = 0 →
      transformNum ⟨1, 2, [], true, false⟩ 5 =
        -|cleanFloat (5 * (⟨1, 2, [], true, false⟩ : ProcessingOptions).multiplier)|) ∧
    (cleanFloat (5 * (⟨1, 2, [], true, false⟩ : ProcessingOptions).multiplier) = 0 →
      transformNum ⟨1, 2, [], true, false⟩ 5 = 0) ∧
    ¬ '-' ∈ getFormattedValueSigned ⟨1, 2, [], true, false⟩ (CellValue.num 0) :=
  C3_amended_force_negative_unsigned_zero ⟨1, 2, [], true, false⟩ rfl zero_lt_one 5
    (CellValue.num 0) (by simp [signedOfCell])

example : normalizeSigned ['-', '0'] = some (true, 0) := by
  simp +decide [normalizeSigned, trimChars, jsNumberSigned?, decCore?, digitsVal,
    digitVal, isWS, isDigitC]

example : normalizeSigned ['(', '-', '0', ')'] = some (false, 0) := by
  simp +decide [normalizeSigned, trimChars, jsNumberSigned?, decCore?, digitsVal,
    digitVal, isWS, isDigitC]

example : getFormattedValueSigned ⟨1, 2, [], true, false⟩ (CellValue.str ['0']) =
    ['0', '.', '0', '0'] := by
  have hn : normalizeSigned ['0'] = some (false, 0) := by
    simp +decide [normalizeSigned, trimChars, jsNumberSigned?, decCore?, digitsVal,
      digitVal, isWS, isDigitC]
  have ht : transformSigned ⟨1, 2, [], true, false⟩ false 0 = (false, 0) :=
    transformSigned_zero_bit ⟨1, 2, [], true, false⟩ (by norm_num) false
  have hm : rndE ((0 : ℚ) * 10 ^ 2) = 0 := by
    rw [show ((0 : ℚ) * 10 ^ 2) = ((0 : ℤ) : ℚ) by norm_num, rndE_intCast]
  simp only [getFormattedValueSigned, hn, ht]
  rw [renderSigned_fixed ⟨1, 2, [], true, false⟩ 2 rfl]
  simp only [fmtFixedSigned, hm]
  rw [if_neg (by simp : ¬((0 : ℚ) < 0 ∨ (True ∧ false = true)))]
  decide


/-- C2: rendering precision.  With decimalPlaces = k the output has exactly
k fraction digits (no dot at all for k = 0), all of them decimal digits, and
stripping the thousands separators and re-reading the text recovers exactly
the value rounded to k fraction digits.  With the sentinel -1 the output has
at most 20 fraction digits, no trailing fraction zero, and stripping the
separators and re-reading the text recovers the converted value exactly —
no significant digit of the pipeline value is lost. -/
theorem C2_render_precision (opts : ProcessingOptions) (q : ℚ) :
    (∀ k : ℕ, opts.decimalPlaces = (k : ℤ) →
      (fracPart (renderNum opts (transformNum opts q))).length = k ∧
      (∀ c ∈ fracPart (renderNum opts (transformNum opts q)), isDigitC c = true) ∧
      jsNumberQ? (stripCommas (renderNum opts (transformNum opts q))) =
        some ((rndE (transformNum opts q * 10 ^ k) : ℚ) / 10 ^ k)) ∧
    (opts.decimalPlaces = -1 →
      (fracPart (renderNum opts (transformNum opts q))).length ≤ 20 ∧
      ¬(fracPart (renderNum opts (transformNum opts q))).getLast? = some '0' ∧
      jsNumberQ? (stripCommas (renderNum opts (transformNum opts q))) =
        some (transformNum opts q)) := by
  constructor
  · intro k hk
    rw [renderNum_fixed opts k hk]
    unfold fmtFixed
    refine ⟨?_, ?_, ?_⟩
    · rw [fmtFixedInt_eq_shape, fracPart_render_shape]
      exact length_padDigits _ _
    · intro c hc
      rw [fmtFixedInt_eq_shape, fracPart_render_shape] at hc
      exact mem_padDigits hc
    · exact parse_fmtFixedInt _ k
  · intro hk
    rw [renderNum_all opts hk]
    obtain ⟨n, hc⟩ := transformNum_image opts q
    rw [hc]
    obtain ⟨z, hdec, hlen⟩ := trimZeros_decomp
      (padDigits 20 ((rndE (((n : ℚ) / 10 ^ 10) * 10 ^ 20)).natAbs % 10 ^ 20))
    rw [length_padDigits] at hlen
    refine ⟨?_, ?_, ?_⟩
    · rw [fmtAll_eq_shape, fracPart_render_shape]
      omega
    · rw [fmtAll_eq_shape, fracPart_render_shape]
      intro hgl
      exact getLast?_trimZeros _ hgl rfl
    · exact parse_fmtAll n

/-- Witness for C2 at two decimal places and the value 5/4. -/
theorem C2_render_precision_witness :
    (fracPart (renderNum ⟨1, 2, [], false, false⟩
        (transformNum ⟨1, 2, [], false, false⟩ (5 / 4)))).length = 2 ∧
    (∀ c ∈ fracPart (renderNum ⟨1, 2, [], false, false⟩
        (transformNum ⟨1, 2, [], false, false⟩ (5 / 4))), isDigitC c = true) ∧
    jsNumberQ? (stripCommas (renderNum ⟨1, 2, [], false, false⟩
        (transformNum ⟨1, 2, [], false, false⟩ (5 / 4)))) =
      some ((rndE (transformNum ⟨1, 2, [], false, false⟩ (5 / 4) * 10 ^ 2) : ℚ) / 10 ^ 2) :=
  (C2_render_precision ⟨1, 2, [], false, false⟩ (5 / 4)).1 2 rfl


/-- C5 counterexample: with multiplier 0.001 and two decimal places, the
value 1000 renders as 1.00, but re-parsing that string and formatting it
again with the same options applies the multiplier a second time and yields
0.00 — idempotence fails whenever the multiplier is not 1. -/
theorem C5_counterexample_multiplier :
    ¬getFormattedValue ⟨1 / 1000, 2, [], false, false⟩
        (CellValue.str (getFormattedValue ⟨1 / 1000, 2, [], false, false⟩
          (CellValue.num 1000))) =
      getFormattedValue ⟨1 / 1000, 2, [], false, false⟩ (CellValue.num 1000) := by
  have ht1 : transformNum ⟨1 / 1000, 2, [], false, false⟩ 1000 = 1 := by
    unfold transformNum cleanFloat
    norm_num
  have hr1 : rndE ((1 : ℚ) * 10 ^ 2) = 100 := by
    rw [show ((1 : ℚ) * 10 ^ 2) = ((100 : ℤ) : ℚ) by norm_num, rndE_intCast]
  have h1 : getFormattedValue ⟨1 / 1000, 2, [], false, false⟩ (CellValue.num 1000) =
      fmtFixedInt 100 2 := by
    show renderNum ⟨1 / 1000, 2, [], false, false⟩
        (transformNum ⟨1 / 1000, 2, [], false, false⟩ 1000) = fmtFixedInt 100 2
    rw [ht1, renderNum_fixed ⟨1 / 1000, 2, [], false, false⟩ 2 rfl]
    unfold fmtFixed
    rw [hr1]
  have hnorm : normalizeChars (fmtFixedInt 100 2) = some 1 := by
    rw [normalize_fmtFixedInt 100 2]
    norm_num
  have ht2 : transformNum ⟨1 / 1000, 2, [], false, false⟩ 1 = 1 / 1000 := by
    unfold transformNum cleanFloat
    norm_num
  have hr2 : rndE ((1 : ℚ) / 1000 * 10 ^ 2) = 0 := by
    unfold rndE
    rw [if_pos (by norm_num)]
    rw [show ((1 : ℚ) / 1000 * 10 ^ 2 + 1 / 2) = 3 / 5 by norm_num]
    norm_num
  have h2 : getFormattedValue ⟨1 / 1000, 2, [], false, false⟩
      (CellValue.str (fmtFixedInt 100 2)) = fmtFixedInt 0 2 := by
    simp only [getFormattedValue, hnorm]
    rw [ht2, renderNum_fixed ⟨1 / 1000, 2, [], false, false⟩ 2 rfl]
    unfold fmtFixed
    rw [hr2]
  rw [h1, h2]
  decide

/-- C5 amended: idempotence under re-parsing holds when the multiplier is 1
(the no-conversion setting): for every numeric value and every option record
with multiplier 1 and a decimal-places value of -1 or above, re-parsing the
rendered display string through the normalizer and formatting it again with
the identical options reproduces the same display string.  With a multiplier
other than 1 the scaling is applied again on each pass, so the claim as
stated fails. -/
theorem C5_amended_idempotent_of_multiplier_one (opts : ProcessingOptions) (q : ℚ)
    (hmul : opts.multiplier = 1) (hdp : -1 ≤ opts.decimalPlaces) :
    getFormattedValue opts (CellValue.str (getFormattedValue opts (CellValue.num q))) =
      getFormattedValue opts (CellValue.num q) := by
  obtain ⟨n, hc⟩ := transformNum_image opts q
  have hFNc : opts.forceNegative = true → transformNum opts q ≤ 0 :=
    fun h => transformNum_nonpos opts q h
  by_cases hk : opts.decimalPlaces = -1
  · have hnum : getFormattedValue opts (CellValue.num q) = fmtAll ((n : ℚ) / 10 ^ 10) := by
      show renderNum opts (transformNum opts q) = fmtAll ((n : ℚ) / 10 ^ 10)
      rw [hc] at *
      exact renderNum_all opts hk _
    rw [hnum]
    show getFormattedValue opts (CellValue.str (fmtAll ((n : ℚ) / 10 ^ 10))) =
      fmtAll ((n : ℚ) / 10 ^ 10)
    simp only [getFormattedValue, normalize_fmtAll n]
    rw [transformNum_fix opts hmul ((n : ℚ) / 10 ^ 10) n rfl (fun h => hc ▸ hFNc h)]
    exact renderNum_all opts hk _
  · have hkex : opts.decimalPlaces = ((opts.decimalPlaces.toNat : ℕ) : ℤ) := by omega
    set k : ℕ := opts.decimalPlaces.toNat with hkdef
    set m : ℤ := rndE (transformNum opts q * 10 ^ k) with hmdef
    have hnum : getFormattedValue opts (CellValue.num q) = fmtFixedInt m k := by
      show renderNum opts (transformNum opts q) = fmtFixedInt m k
      rw [renderNum_fixed opts k hkex]
      rfl
    rw [hnum]
    show getFormattedValue opts (CellValue.str (fmtFixedInt m k)) = fmtFixedInt m k
    simp only [getFormattedValue, normalize_fmtFixedInt m k]
    obtain ⟨m2, hm2⟩ : ∃ m2 : ℤ, ((m : ℤ) : ℚ) / 10 ^ k = (m2 : ℚ) / 10 ^ 10 := by
      rw [hmdef, hc]
      exact rndE_div_image n k
    have hdle : opts.forceNegative = true → ((m : ℤ) : ℚ) / 10 ^ k ≤ 0 := by
      intro h
      rw [hmdef]
      exact rndE_div_nonpos (hFNc h) k
    rw [transformNum_fix opts hmul (((m : ℤ) : ℚ) / 10 ^ k) m2 hm2 hdle]
    rw [renderNum_fixed opts k hkex]
    exact fmtFixed_div m k

/-- Witness for the amended C5 with multiplier 1, two decimal places, and
the value 5/4. -/
theorem C5_amended_idempotent_witness :
    getFormattedValue ⟨1, 2, [], false, false⟩
        (CellValue.str (getFormattedValue ⟨1, 2, [], false, false⟩ (CellValue.num (5 / 4)))) =
      getFormattedValue ⟨1, 2, [], false, false⟩ (CellValue.num (5 / 4)) :=
  C5_amended_idempotent_of_multiplier_one ⟨1, 2, [], false, false⟩ (5 / 4) rfl (by decide)


end FinanceOCR
